import Mathlib

/-!
Verification development for the LWT (layered workflow) execution engine of
the anot repository: script parsing, dependency layering, variable
substitution, layered execution and final-answer parsing, embedded from
src/knot.py, src/rnot.py, src/methods/anot/helpers.py and
src/methods/anot/core.py.
-/

/-! ## Character classes and Python string helpers -/

/-- Python whitespace characters (str.strip, regex backslash-s), ASCII range. -/
def isPySpace (c : Char) : Bool :=
  c == ' ' || c == '\t' || c == '\n' || c == '\r' || c == Char.ofNat 11 || c == Char.ofNat 12

/-- Regex word character (backslash-w), ASCII range: letters, digits, underscore. -/
def isWordCh (c : Char) : Bool :=
  c.isAlpha || c.isDigit || c == '_'

/-- Character class of the dependency-extraction regex in
src/methods/anot/helpers.py: letters, digits, underscore and dot. -/
def isDepCh (c : Char) : Bool :=
  c.isAlpha || c.isDigit || c == '_' || c == '.'

/-- Python str.strip: drop whitespace from both ends. -/
def pyStrip (s : String) : String :=
  String.mk (((s.data.dropWhile isPySpace).reverse.dropWhile isPySpace).reverse)

/-- Python str.lower on ASCII data. -/
def pyLower (s : String) : String :=
  String.mk (s.data.map Char.toLower)

/-- Python substring membership test (the in operator on strings). -/
def containsStr (pat s : String) : Bool :=
  s.data.tails.any (fun t => pat.data.isPrefixOf t)

/-- Value of a digit run, as Python int() of the matched text. -/
def digitsToNat (l : List Char) : Nat :=
  l.foldl (fun n c => n * 10 + (c.toNat - 48)) 0

/-! ## Ternary final-answer parsing (src/knot.py parse_final_answer,
identical in src/rnot.py) -/

/-- Suffix requirement of the ternary regex: whitespace, end of string, or a dot. -/
def ternSuffixOk (rest : List Char) : Bool :=
  match rest with
  | [] => true
  | c :: _ => isPySpace c || c == '.'

/-- Try to match the group alternatives -1, 0, 1 (in regex alternation order)
followed by the required suffix, at the head of the character list. -/
def ternAt (l : List Char) : Option Int :=
  match l with
  | '-' :: '1' :: rest => if ternSuffixOk rest then some (-1) else none
  | '0' :: rest => if ternSuffixOk rest then some 0 else none
  | '1' :: rest => if ternSuffixOk rest then some 1 else none
  | _ => none

/-- Scan for the leftmost position whose character is a colon or whitespace and
is followed by a ternary token match (the consuming prefix alternative). -/
def searchTernAux : List Char → Option Int
  | [] => none
  | c :: cs =>
    if c == ':' || isPySpace c then
      match ternAt cs with
      | some v => some v
      | none => searchTernAux cs
    else
      searchTernAux cs

/-- Leftmost search for the ternary-answer regex: the start-of-string
alternative is available only at position zero and is tried first. -/
def searchTern (l : List Char) : Option Int :=
  match ternAt l with
  | some v => some v
  | none => searchTernAux l

/-- Body of parse_final_answer after the initial strip reassignment. -/
def parseFinalStripped (o : String) : Int :=
  if o == "-1" || o == "0" || o == "1" then
    (if o == "-1" then -1 else if o == "0" then 0 else 1)
  else
    match searchTern o.data with
    | some v => v
    | none =>
      if containsStr "not recommend" (pyLower o) then -1
      else if containsStr "recommend" (pyLower o) && !(containsStr "not" (pyLower o)) then 1
      else 0

/-- parse_final_answer from src/knot.py lines 133-148 (same code in
src/rnot.py lines 108-123): strip, accept an exact token, else regex search,
else keyword heuristics. -/
def parse_final_answer (output : String) : Int :=
  parseFinalStripped (pyStrip output)

/-! ## Ranked-list final parsing (src/methods/anot/core.py evaluate_ranking,
lines 637-647) -/

/-- Integer tokens of a text, in order of appearance: the matches of a
digit-run regex bounded by word boundaries.  The flag records whether the
previous character was a word character (no boundary available). -/
def intTokensAux (prevWord : Bool) : List Char → List Nat
  | [] => []
  | c :: cs =>
    if c.isDigit && !prevWord then
      let run := c :: cs.takeWhile Char.isDigit
      let rest := cs.dropWhile Char.isDigit
      (match rest with
       | [] => [digitsToNat run]
       | d :: _ => if isWordCh d then intTokensAux true rest
                   else digitsToNat run :: intTokensAux true rest)
    else intTokensAux (isWordCh c) cs
termination_by l => l.length
decreasing_by
  all_goals simp_wf
  all_goals first
    | exact Nat.lt_succ_of_le (List.dropWhile_sublist _).length_le
    | exact Nat.lt_succ_self _

/-- All boundary-delimited integer tokens of a string, in order. -/
def intTokens (s : String) : List Nat :=
  intTokensAux false s.data

/-- Final-output parsing of evaluate_ranking in src/methods/anot/core.py:
collect in-range integer tokens without repetition, fall back to the identity
ranking when none are found, truncate to the first k. -/
def parse_ranking (output : String) (n_items k : Nat) : List Nat :=
  let indices := (intTokens output).foldl
    (fun acc idx => if 1 ≤ idx && idx ≤ n_items && !(acc.contains idx) then acc ++ [idx] else acc) []
  let indices := if indices.isEmpty then List.range' 1 (min k n_items) else indices
  indices.take k

/-- Specification-side pipeline for ranked-list parsing: keep the tokens lying
in the range 1..n, deduplicated preserving first-seen order (seen accumulates
the already-kept tokens). -/
def rankSieve (n : Nat) (seen : List Nat) : List Nat → List Nat
  | [] => []
  | t :: ts =>
    if 1 ≤ t && t ≤ n && !(seen.contains t) then t :: rankSieve n (seen ++ [t]) ts
    else rankSieve n seen ts

/-! ## Value model for Python data flowing through substitution -/

/-- Keys of a Python dict reachable in this engine: strings or integers. -/
inductive DKey where
  | ks (s : String)
  | ki (n : Int)
deriving DecidableEq

/-- Tagged union for the Python values handled by substitute_variables:
None, bool, int, str, list/tuple, dict. -/
inductive Val where
  | vnone
  | vbool (b : Bool)
  | vint (n : Int)
  | vstr (s : String)
  | vlist (xs : List Val)
  | vdict (kvs : List (DKey × Val))

/-- The isinstance(val, (dict, list, tuple)) test of src/knot.py. -/
def isContainer : Val → Bool
  | .vlist _ => true
  | .vdict _ => true
  | _ => false

/-- Decimal rendering of an integer, as Python str(int). -/
def intStr (n : Int) : String := toString n

/-- Lowercase hexadecimal digit. -/
def hexDigit (d : Nat) : Char :=
  if d < 10 then Char.ofNat (48 + d) else Char.ofNat (87 + d)

/-- Four lowercase hex digits, as in a JSON backslash-u escape. -/
def hex4 (n : Nat) : String :=
  String.mk [hexDigit (n / 4096 % 16), hexDigit (n / 256 % 16), hexDigit (n / 16 % 16),
    hexDigit (n % 16)]

/-- JSON string escaping of one character (json.dumps default ensure_ascii). -/
def jsonEscChar (c : Char) : String :=
  if c = '"' then "\\\""
  else if c = '\\' then "\\\\"
  else if c = '\n' then "\\n"
  else if c = '\r' then "\\r"
  else if c = '\t' then "\\t"
  else if c = Char.ofNat 8 then "\\b"
  else if c = Char.ofNat 12 then "\\f"
  else if c.toNat < 32 then "\\u" ++ hex4 c.toNat
  else if c.toNat < 128 then String.mk [c]
  else if c.toNat < 65536 then "\\u" ++ hex4 c.toNat
  else
    "\\u" ++ hex4 (55296 + (c.toNat - 65536) / 1024) ++ "\\u" ++ hex4 (56320 + (c.toNat - 65536) % 1024)

/-- JSON string literal for a Python string. -/
def jsonQuote (s : String) : String :=
  "\"" ++ String.join (s.data.map jsonEscChar) ++ "\""

/-- JSON rendering of a dict key (json.dumps stringifies integer keys). -/
def jsonKey : DKey → String
  | .ks s => jsonQuote s
  | .ki n => "\"" ++ intStr n ++ "\""

mutual

/-- json.dumps with default separators, as called by src/knot.py on
container values. -/
def jsonDumps : Val → String
  | .vnone => "null"
  | .vbool b => if b then "true" else "false"
  | .vint n => intStr n
  | .vstr s => jsonQuote s
  | .vlist xs => "[" ++ jsonDumpsList xs ++ "]"
  | .vdict kvs => "\x7b" ++ jsonDumpsKVs kvs ++ "\x7d"

/-- Comma-joined JSON rendering of list elements. -/
def jsonDumpsList : List Val → String
  | [] => ""
  | [x] => jsonDumps x
  | x :: y :: xs => jsonDumps x ++ ", " ++ jsonDumpsList (y :: xs)

/-- Comma-joined JSON rendering of dict entries. -/
def jsonDumpsKVs : List (DKey × Val) → String
  | [] => ""
  | [(k, v)] => jsonKey k ++ ": " ++ jsonDumps v
  | (k, v) :: e :: kvs => jsonKey k ++ ": " ++ jsonDumps v ++ ", " ++ jsonDumpsKVs (e :: kvs)

end

/-- Final rendering of a resolved value in src/knot.py substitute_variables:
containers via json.dumps, anything else via str(). -/
def renderVal (v : Val) : String :=
  match v with
  | .vlist _ => jsonDumps v
  | .vdict _ => jsonDumps v
  | .vnone => "None"
  | .vbool b => if b then "True" else "False"
  | .vint n => intStr n
  | .vstr s => s

/-- Python str.isdigit on an accessor string. -/
def isDigitStr (s : String) : Bool :=
  !s.data.isEmpty && s.data.all Char.isDigit

/-- Dict lookup by string key (first matching entry). -/
def dictGetStr : List (DKey × Val) → String → Option Val
  | [], _ => none
  | (k, v) :: rest, s => if k = DKey.ks s then some v else dictGetStr rest s

/-- Dict lookup by integer key (first matching entry). -/
def dictGetInt : List (DKey × Val) → Int → Option Val
  | [], _ => none
  | (k, v) :: rest, n => if k = DKey.ki n then some v else dictGetInt rest n

/-- One iteration of the accessor loop of src/knot.py substitute_variables
lines 97-107: dict access by string key with integer-key fallback for digit
accessors, list access by in-range integer index, anything else collapses to
the empty string. -/
def applyAcc (val : Val) (acc : String) : Val :=
  match val with
  | .vdict kvs =>
    (match dictGetStr kvs acc with
     | some v => v
     | none =>
       if isDigitStr acc then
         (match dictGetInt kvs (Int.ofNat (digitsToNat acc.data)) with
          | some v => v
          | none => .vnone)
       else .vstr "")
  | .vlist xs =>
    if isDigitStr acc then
      (if digitsToNat acc.data < xs.length then xs.getD (digitsToNat acc.data) (.vstr "")
       else .vstr "")
    else .vstr ""
  | _ => .vstr ""

/-- First-match lookup in the step-result cache (Python dict.get). -/
def lookupCache : List (String × Val) → String → Option Val
  | [], _ => none
  | (k, v) :: rest, s => if k = s then some v else lookupCache rest s

/-- Resolution of one matched reference in src/knot.py substitute_variables:
base-value lookup, best-effort literal reinterpretation of strings when
accessors are present (the ast.literal_eval attempt is the parameter lit),
left-to-right accessor application and final rendering. -/
def resolveRef (lit : String → Option Val) (query context : Val)
    (cache : List (String × Val)) (name : String) (accs : List String) : String :=
  let base : Val :=
    if name = "input" then query
    else if name = "context" then context
    else match lookupCache cache name with | some v => v | none => .vstr ""
  let base : Val :=
    match base with
    | .vstr s =>
      if accs.isEmpty then base
      else (match lit s with
            | some p => if isContainer p then p else base
            | none => base)
    | _ => base
  renderVal (accs.foldl applyAcc base)

/-! ## The reference-marker scanner of src/knot.py substitute_variables -/

/-- Scan for the closing bracket of one accessor: returns the bracket body and
the characters after the closing bracket. -/
def scanAccBody : List Char → Option (List Char × List Char)
  | [] => none
  | c :: rest =>
    if c = ']' then some ([], rest)
    else
      match scanAccBody rest with
      | some (body, rem) => some (c :: body, rem)
      | none => none

/-- Greedy parse of the accessor suffix (zero or more bracketed nonempty
bodies): the accessor strings, and the count of consumed characters.  The
recursion drops one opening bracket, the body and one closing bracket before
rescanning. -/
def parseAccessors : List Char → List String × Nat
  | '[' :: rest =>
    (match scanAccBody rest with
     | some (b :: bs, _) =>
       let p := parseAccessors (rest.drop ((b :: bs).length + 1))
       (String.mk (b :: bs) :: p.1, ((b :: bs).length + 2) + p.2)
     | _ => ([], 0))
  | _ => ([], 0)
termination_by l => l.length
decreasing_by
  simp_wf
  omega

/-- Attempt to match one reference of the substitution grammar (an opening
brace-parenthesis pair, a nonempty word-character name, the closing pair,
then the greedy accessor suffix) at the head of the character list.  Returns
the name, the accessor strings and the total count of matched characters. -/
def tryMatchRef (l : List Char) : Option (String × List String × Nat) :=
  match l with
  | '\x7b' :: '(' :: rest =>
    (match rest.takeWhile isWordCh, rest.dropWhile isWordCh with
     | n :: ns, ')' :: '\x7d' :: rest2 =>
       let p := parseAccessors rest2
       some (String.mk (n :: ns), p.1, ((n :: ns).length + 4) + p.2)
     | _, _ => none)
  | _ => none

/-- One segment of a template: a literal character copied through, or a
matched reference. -/
inductive Seg where
  | lit (c : Char)
  | ref (name : String) (accs : List String)
deriving DecidableEq

/-- Left-to-right single-pass scan of a template into segments, as performed
by re.sub: at each position the leftmost match is taken whole, everything
else is copied as literal text. -/
def scanTemplate : List Char → List Seg
  | [] => []
  | c :: cs =>
    match tryMatchRef (c :: cs) with
    | some (name, accs, k) => .ref name accs :: scanTemplate (cs.drop (k - 1))
    | none => .lit c :: scanTemplate cs
termination_by l => l.length
decreasing_by
  · simp only [List.length_drop, List.length_cons]
    omega
  · simp

/-- Membership test for the reference grammar: true when some position of the
character list starts a reference match. -/
def hasRefB : List Char → Bool
  | [] => false
  | c :: cs => (tryMatchRef (c :: cs)).isSome || hasRefB cs

/-- The characters an accessor suffix stands for. -/
def accsText (accs : List String) : List Char :=
  (accs.map (fun a => '[' :: (a.data ++ [']']))).flatten

/-- The characters a whole reference match stands for. -/
def refText (name : String) (accs : List String) : List Char :=
  '\x7b' :: '(' :: (name.data ++ ')' :: '\x7d' :: accsText accs)

/-- The literal text a segment stands for (a reference reassembles its
matched characters). -/
def segText : Seg → List Char
  | .lit c => [c]
  | .ref name accs => refText name accs

/-- The template text a segment list reassembles to. -/
def segsText (segs : List Seg) : List Char :=
  (segs.map segText).flatten

/-- Replace every segment by its substitution result (references through the
resolver, literal characters unchanged). -/
def renderSegs (f : String → List String → String) (segs : List Seg) : List Char :=
  (segs.map (fun s => match s with | .lit c => [c] | .ref n a => (f n a).data)).flatten

/-- substitute_variables of src/knot.py lines 74-117: one left-to-right re.sub
pass over the instruction, replacing each reference match by its resolution
against the fixed inputs and the cache; lit is the ast.literal_eval oracle. -/
def substitute_variables (lit : String → Option Val) (instruction : String)
    (query context : Val) (cache : List (String × Val)) : String :=
  String.mk (renderSegs (resolveRef lit query context cache) (scanTemplate instruction.data))

/-! ## Dependency extraction and execution layers
(src/methods/anot/helpers.py) -/

/-- Attempt to match one dependency marker (brace-parenthesis pair around a
nonempty run of letters, digits, underscores and dots) at the head of the
list; returns the captured name and the count of matched characters. -/
def tryMatchDep (l : List Char) : Option (String × Nat) :=
  match l with
  | '\x7b' :: '(' :: rest =>
    (match rest.takeWhile isDepCh, rest.dropWhile isDepCh with
     | n :: ns, ')' :: '\x7d' :: _ => some (String.mk (n :: ns), (n :: ns).length + 4)
     | _, _ => none)
  | _ => none

/-- All dependency markers of an instruction, leftmost non-overlapping, as
re.findall scans them. -/
def depScan : List Char → List String
  | [] => []
  | c :: cs =>
    (match tryMatchDep (c :: cs) with
     | some (name, k) => name :: depScan (cs.drop (k - 1))
     | none => depScan cs)
termination_by l => l.length
decreasing_by
  · simp only [List.length_drop, List.length_cons]
    omega
  · simp

/-- extract_dependencies from src/methods/anot/helpers.py lines 8-11: the step
IDs referenced by an instruction (list form of the Python set; only
membership is ever used). -/
def extract_dependencies (instruction : String) : List String :=
  depScan instruction.data

/-- The reserved input variables of build_execution_layers. -/
def input_vars : List String := ["query", "input", "items", "context"]

/-- The dependency set the layer builder records for a step ID: dependencies
of the last declaration with that ID (Python dict construction overwrites),
minus the reserved input variables. -/
def stepDeps (steps : List (String × String)) (idx : String) : List String :=
  match (steps.filter (fun s => s.1 == idx)).getLast? with
  | some s => (extract_dependencies s.2).filter (fun d => !(input_vars.contains d))
  | none => []

/-- One scan of the while loop of build_execution_layers: the unassigned
steps whose dependency set is contained in the assigned set, in declaration
order. -/
def layerCandidates (steps : List (String × String)) (assigned : List String) :
    List (String × String) :=
  steps.filter (fun s => !(assigned.contains s.1) &&
    (stepDeps steps s.1).all (fun d => assigned.contains d))

/-- Add a list of IDs to the assigned set (Python set.add: ignore members
already present). -/
def addIds (assigned ids : List String) : List String :=
  ids.foldl (fun a i => if a.contains i then a else a ++ [i]) assigned

/-- The while loop of build_execution_layers (src/methods/anot/helpers.py
lines 39-57): scan for candidates, raise listing the remaining IDs when the
scan is empty but unassigned steps remain, otherwise commit the layer and
repeat while fewer IDs are assigned than there are steps. -/
def layersLoop (steps : List (String × String)) (assigned : List String)
    (acc : List (List (String × String))) :
    Except (List String) (List (List (String × String))) :=
  if assigned.length < steps.length then
    (if hc : (layerCandidates steps assigned).isEmpty then
       (if (steps.filter (fun s => !(assigned.contains s.1))).isEmpty then .ok acc.reverse
        else .error ((steps.filter (fun s => !(assigned.contains s.1))).map (fun s => s.1)))
     else
       layersLoop steps (addIds assigned ((layerCandidates steps assigned).map (fun s => s.1)))
         (layerCandidates steps assigned :: acc))
  else .ok acc.reverse
termination_by steps.length - assigned.length
decreasing_by
  have hmono : ∀ (ids a : List String), a.length ≤ (addIds a ids).length := by
    intro ids
    induction ids with
    | nil => intro a; exact Nat.le_refl _
    | cons i rest ih =>
      intro a
      show a.length ≤ (addIds (if a.contains i then a else a ++ [i]) rest).length
      by_cases hmem : a.contains i
      · rw [if_pos hmem]; exact ih a
      · rw [if_neg hmem]
        calc a.length ≤ (a ++ [i]).length := by simp
          _ ≤ _ := ih (a ++ [i])
  have hgrow : ∀ (ids a : List String), (∃ i ∈ ids, a.contains i = false) →
      a.length < (addIds a ids).length := by
    intro ids
    induction ids with
    | nil => intro a hex; exact absurd hex (by simp)
    | cons i rest ih =>
      intro a hex
      show a.length < (addIds (if a.contains i then a else a ++ [i]) rest).length
      by_cases hmem : a.contains i
      · rw [if_pos hmem]
        obtain ⟨j, hj, hjn⟩ := hex
        rcases List.mem_cons.mp hj with rfl | hj
        · rw [hmem] at hjn; cases hjn
        · exact ih a ⟨j, hj, hjn⟩
      · rw [if_neg hmem]
        calc a.length < (a ++ [i]).length := by simp
          _ ≤ _ := hmono rest (a ++ [i])
  have hcur : ∃ i ∈ (layerCandidates steps assigned).map (fun s => s.1),
      assigned.contains i = false := by
    rcases hne : layerCandidates steps assigned with _ | ⟨s0, rest0⟩
    · exfalso
      apply hc
      show (layerCandidates steps assigned).isEmpty = true
      rw [hne]
      rfl
    · refine ⟨s0.1, by simp [hne], ?_⟩
      have hs0 : s0 ∈ layerCandidates steps assigned := by rw [hne]; exact List.mem_cons_self _ _
      unfold layerCandidates at hs0
      have hp := (List.mem_filter.mp hs0).2
      simp only [Bool.and_eq_true, Bool.not_eq_true'] at hp
      exact hp.1
  have := hgrow _ _ hcur
  omega

/-- build_execution_layers from src/methods/anot/helpers.py lines 13-59:
empty input gives an empty layer list, otherwise run the scanning loop with
nothing assigned. -/
def build_execution_layers (steps : List (String × String)) :
    Except (List String) (List (List (String × String))) :=
  if steps.isEmpty then .ok []
  else layersLoop steps [] []

/-- A set of step-IDs closed under the layer builder's assignability rule:
whenever all recorded dependencies of a step are in the set, its ID is. -/
def SatClosed (steps : List (String × String)) (X : Set String) : Prop :=
  ∀ s ∈ steps, (∀ d ∈ stepDeps steps s.1, d ∈ X) → s.1 ∈ X

/-- The least assignability-closed set: exactly the step IDs that can ever
be scheduled; IDs outside it are the steps stuck on cyclic or missing
references. -/
def satIds (steps : List (String × String)) : Set String :=
  { i | ∀ X : Set String, SatClosed steps X → i ∈ X }

/-- Specification of the committed layer chain: starting from an assigned
set, the produced layers are successive candidate scans, and at the end every
step ID is assigned. -/
inductive Layered (steps : List (String × String)) :
    List String → List (List (String × String)) → Prop where
  | done (assigned : List String) (h : ∀ s ∈ steps, s.1 ∈ assigned) :
      Layered steps assigned []
  | step (assigned : List String) (S : List (List (String × String)))
      (hne : layerCandidates steps assigned ≠ [])
      (hS : Layered steps
        (addIds assigned ((layerCandidates steps assigned).map (fun s => s.1))) S) :
      Layered steps assigned (layerCandidates steps assigned :: S)

/-- The step IDs of the first k layers. -/
def layersIds (L : List (List (String × String))) (k : Nat) : List String :=
  ((L.take k).flatten).map (fun s => s.1)

/-! ## Execution engines -/

/-- First-match association lookup (Python dict.get on the string cache). -/
def lookupStr : List (String × String) → String → Option String
  | [], _ => none
  | (k, v) :: rest, s => if k = s then some v else lookupStr rest s

/-- Python dict assignment on the string cache, observed through dict.get:
the newest binding shadows older ones under first-match lookup. -/
def cacheSet (cache : List (String × String)) (k v : String) : List (String × String) :=
  (k, v) :: cache

/-- Python dict assignment on the value cache of the knot engine, observed
through dict.get: the newest binding shadows older ones. -/
def cacheSetV (cache : List (String × Val)) (k : String) (v : Val) : List (String × Val) :=
  (k, v) :: cache

/-- Result of executing one step in the ranked-list engine. -/
structure StepOut where
  idx : String
  out : String
  err : Option String

/-- One step of _execute_step_async (src/methods/anot/core.py lines 470-494):
substitute against the current cache, call the collaborator, and on any
exception record the error and fall back to the sentinel output NO. -/
def anotStep (collab : String → Except String String)
    (subst : String → List (String × String) → String)
    (cache : List (String × String)) (s : String × String) : StepOut :=
  match collab (subst s.2 cache) with
  | .ok o => ⟨s.1, o, none⟩
  | .error e => ⟨s.1, "NO", some e⟩

/-- _execute_parallel (src/methods/anot/core.py lines 513-532): process the
layers in order; within a layer every step is substituted against the cache
as it stood when the layer started, all results are then written back, and
the running final text becomes the last result of the layer.  Returns the
final text, the cache and the recorded per-step errors. -/
def run_layers (collab : String → Except String String)
    (subst : String → List (String × String) → String) :
    List (String × String) → String → List (List (String × String)) →
      String × List (String × String) × List (String × String)
  | cache, final, [] => (final, cache, [])
  | cache, final, layer :: rest =>
    let results := layer.map (anotStep collab subst cache)
    let cache2 := results.foldl (fun c r => cacheSet c r.idx r.out) cache
    let final2 := match results.getLast? with | some r => r.out | none => final
    let rec0 := run_layers collab subst cache2 final2 rest
    (rec0.1, rec0.2.1, (results.filterMap (fun r => r.err.map (fun e => (r.idx, e)))) ++ rec0.2.2)

/-- The cache visible to layer n: the run of the first n layers from the
empty cache. -/
def cacheBefore (collab : String → Except String String)
    (subst : String → List (String × String) → String)
    (layers : List (List (String × String))) (n : Nat) : List (String × String) :=
  (run_layers collab subst [] "" (layers.take n)).2.1

/-- ast.literal_eval result used by the knot engine when caching a step
output: the parsed literal when parsing succeeds, the raw string otherwise. -/
def litOr (lit : String → Option Val) (s : String) : Val :=
  match lit s with
  | some v => v
  | none => .vstr s

/-- execute_script of src/knot.py lines 228-262 after script parsing:
sequentially substitute, call the collaborator with fallback output 0 on any
exception, cache the literal-parsed output, and track the final text.
Also returns the (id, output) trace in execution order. -/
def knot_execute (lit : String → Option Val) (collab : String → Except String String)
    (query context : Val) :
    String → List (String × Val) → List (String × String) →
      String × List (String × Val) × List (String × String)
  | final, cache, [] => (final, cache, [])
  | _, cache, (idx, instr) :: rest =>
    let filled := substitute_variables lit instr query context cache
    let output := match collab filled with | .ok o => o | .error _ => "0"
    let rec0 := knot_execute lit collab query context output (cacheSetV cache idx (litOr lit output)) rest
    (rec0.1, rec0.2.1, (idx, output) :: rec0.2.2)

/-! ## Script parsing (src/knot.py parse_script, identical in src/rnot.py) -/

/-- Python str.split on the newline character. -/
def splitOnNl : List Char → List (List Char)
  | [] => [[]]
  | c :: cs =>
    (let r := splitOnNl cs
     if c = '\n' then [] :: r
     else match r with
          | h :: t => (c :: h) :: t
          | [] => [[c]])

/-- Substring test over a character list. -/
def containsChars (pat : String) (l : List Char) : Bool :=
  l.tails.any (fun t => pat.data.isPrefixOf t)

/-- Try to match the step-ID pattern (parenthesized nonempty digit run,
optional whitespace around an equals sign, then the letters LLM) at the head
of the list. -/
def matchIdxAt (l : List Char) : Option String :=
  match l with
  | '(' :: rest =>
    (match rest.takeWhile Char.isDigit, rest.dropWhile Char.isDigit with
     | d :: ds, ')' :: rest2 =>
       (match rest2.dropWhile isPySpace with
        | '=' :: rest3 =>
          (match rest3.dropWhile isPySpace with
           | 'L' :: 'L' :: 'M' :: _ => some (String.mk (d :: ds))
           | _ => none)
        | _ => none)
     | _, _ => none)
  | _ => none

/-- Leftmost search for the step-ID pattern. -/
def findIdx : List Char → Option String
  | [] => none
  | c :: cs =>
    match matchIdxAt (c :: cs) with
    | some i => some i
    | none => findIdx cs

/-- Quote characters accepted by the instruction pattern. -/
def isQuoteCh (c : Char) : Bool := c == '"' || c == '\''

/-- Whether the next two characters close a lazily matched instruction body
(a quote character followed by a closing parenthesis). -/
def closesHere (cs : List Char) : Bool :=
  match cs with
  | q :: ')' :: _ => isQuoteCh q
  | _ => false

/-- Lazy nonempty body of the instruction pattern: the shortest nonempty
prefix followed by a quote character and a closing parenthesis. -/
def lazyContent : List Char → Option (List Char)
  | [] => none
  | c :: cs =>
    if closesHere cs then some [c]
    else
      match lazyContent cs with
      | some t => some (c :: t)
      | none => none

/-- Try to match the instruction pattern (the letters LLM, an opening
parenthesis, a quote character, then the lazy body) at the head of the list. -/
def matchInstrAt (l : List Char) : Option (List Char) :=
  match l with
  | 'L' :: 'L' :: 'M' :: '(' :: rest =>
    (match rest with
     | q :: rest2 => if isQuoteCh q then lazyContent rest2 else none
     | [] => none)
  | _ => none

/-- Leftmost search for the instruction pattern. -/
def findInstr : List Char → Option (List Char)
  | [] => none
  | c :: cs =>
    match matchInstrAt (c :: cs) with
    | some t => some t
    | none => findInstr cs

/-- Parse one script line: skip lines without the =LLM( marker, then require
both the step-ID match and the instruction match. -/
def parseLine (l : List Char) : Option (String × String) :=
  if containsChars "=LLM(" l then
    match findIdx l, findInstr l with
    | some i, some t => some (i, String.mk t)
    | _, _ => none
  else none

/-- parse_script from src/knot.py lines 120-130 (same code in src/rnot.py
lines 55-65): split into lines and keep the parseable step declarations in
order. -/
def parse_script (script : String) : List (String × String) :=
  (splitOnNl script.data).filterMap parseLine

/-- Canonical rendering of one step declaration, following the script text
format of the specification. -/
def renderLine (p : String × String) : String :=
  "(" ++ p.1 ++ ")=LLM(\"" ++ p.2 ++ "\")"

/-- Canonical rendering of a whole script, one declaration per line. -/
def renderScript : List (String × String) → String
  | [] => ""
  | [p] => renderLine p
  | p :: q :: rest => renderLine p ++ "\n" ++ renderScript (q :: rest)

/-- No quote character immediately followed by a closing parenthesis among
adjacent character pairs (such a pair would end the lazy instruction body
early). -/
def noEarlyClose : List Char → Bool
  | a :: b :: rest => !(isQuoteCh a && b == ')') && noEarlyClose (b :: rest)
  | _ => true

/-- Well-formedness of a step declaration for the parsing round-trip: a
nonempty purely numeric ID, and a nonempty instruction containing no newline
and no quote character immediately followed by a closing parenthesis. -/
def WellFormedPair (p : String × String) : Prop :=
  p.1.data ≠ [] ∧ (∀ c ∈ p.1.data, c.isDigit = true) ∧ p.2.data ≠ [] ∧
  (∀ c ∈ p.2.data, c ≠ '\n') ∧ noEarlyClose p.2.data = true

theorem rankSieve_foldl (n : Nat) (ts : List Nat) :
    ∀ acc : List Nat,
      ts.foldl (fun acc idx => if 1 ≤ idx && idx ≤ n && !(acc.contains idx) then acc ++ [idx] else acc) acc
        = acc ++ rankSieve n acc ts := by
  induction ts with
  | nil => intro acc; simp [rankSieve]
  | cons t ts ih =>
    intro acc
    by_cases h : (1 ≤ t && t ≤ n && !(acc.contains t)) = true
    · simp only [List.foldl_cons, rankSieve, h, if_pos, if_true]
      rw [ih (acc ++ [t])]
      simp
    · simp only [List.foldl_cons, rankSieve, h, if_neg, Bool.not_eq_true, if_false]
      rw [ih acc]

theorem rankSieve_bounds (n : Nat) (ts : List Nat) :
    ∀ seen x, x ∈ rankSieve n seen ts → 1 ≤ x ∧ x ≤ n := by
  induction ts with
  | nil => intro seen x hx; simp [rankSieve] at hx
  | cons t ts ih =>
    intro seen x hx
    unfold rankSieve at hx
    split at hx
    · rcases List.mem_cons.mp hx with rfl | hx
      · rename_i h
        simp only [Bool.and_eq_true, decide_eq_true_eq] at h
        exact ⟨h.1.1, h.1.2⟩
      · exact ih _ x hx
    · exact ih _ x hx

theorem rankSieve_notSeen (n : Nat) (ts : List Nat) :
    ∀ seen x, x ∈ rankSieve n seen ts → x ∉ seen := by
  induction ts with
  | nil => intro seen x hx; simp [rankSieve] at hx
  | cons t ts ih =>
    intro seen x hx
    unfold rankSieve at hx
    split at hx
    · rcases List.mem_cons.mp hx with rfl | hx
      · rename_i h
        simp only [Bool.and_eq_true, decide_eq_true_eq, Bool.not_eq_true'] at h
        simpa using h.2
      · intro hmem
        exact ih _ x hx (by simp [hmem])
    · exact ih _ x hx

theorem rankSieve_nodup (n : Nat) (ts : List Nat) :
    ∀ seen, (rankSieve n seen ts).Nodup := by
  induction ts with
  | nil => intro seen; simp [rankSieve]
  | cons t ts ih =>
    intro seen
    unfold rankSieve
    split
    · refine List.nodup_cons.mpr ⟨?_, ih _⟩
      intro hmem
      exact rankSieve_notSeen n ts _ t hmem (by simp)
    · exact ih _

theorem rankSieve_empty_iff (n : Nat) (ts : List Nat) :
    ∀ seen, rankSieve n seen ts = [] ↔ ∀ t ∈ ts, ¬(1 ≤ t ∧ t ≤ n ∧ t ∉ seen) := by
  induction ts with
  | nil => intro seen; simp [rankSieve]
  | cons t ts ih =>
    intro seen
    unfold rankSieve
    split
    · rename_i h
      simp only [Bool.and_eq_true, decide_eq_true_eq, Bool.not_eq_true'] at h
      constructor
      · intro hc; exact absurd hc (by simp)
      · intro hall
        exact absurd ⟨h.1.1, h.1.2, by simpa using h.2⟩ (hall t (by simp))
    · rename_i h
      rw [ih seen]
      constructor
      · intro hall u hu
        rcases List.mem_cons.mp hu with rfl | hu
        · intro hc
          refine h ?_
          simp only [Bool.and_eq_true, decide_eq_true_eq, Bool.not_eq_true']
          exact ⟨⟨hc.1, hc.2.1⟩, by simpa using hc.2.2⟩
        · exact hall u hu
      · intro hall u hu; exact hall u (List.mem_cons_of_mem _ hu)

/-! ## Claim C6 -/

/-- C6: ranked-list parsing keeps the integer tokens of the text in first
appearance order, restricted to the range 1..n, deduplicated keeping first
occurrences, truncated to k, with fallback to the identity ranking when no
token is in range; the result is duplicate-free with length at most k and all
elements in the range 1..n. -/
theorem C6_parse_ranking_spec (s : String) (n k : Nat) (hn : 1 ≤ n) (hk : 1 ≤ k) :
    parse_ranking s n k =
      (if rankSieve n [] (intTokens s) = [] then List.range' 1 (min k n)
       else rankSieve n [] (intTokens s)).take k ∧
    (rankSieve n [] (intTokens s) = [] ↔ ∀ t ∈ intTokens s, ¬(1 ≤ t ∧ t ≤ n)) ∧
    (parse_ranking s n k).Nodup ∧
    (parse_ranking s n k).length ≤ k ∧
    (∀ x ∈ parse_ranking s n k, 1 ≤ x ∧ x ≤ n) := by
  have hfold := rankSieve_foldl n (intTokens s) []
  have hrw : parse_ranking s n k =
      (if rankSieve n [] (intTokens s) = [] then List.range' 1 (min k n)
       else rankSieve n [] (intTokens s)).take k := by
    unfold parse_ranking
    rw [hfold]
    simp [List.isEmpty_iff]
  refine ⟨hrw, ?_, ?_, ?_, ?_⟩
  · simpa using rankSieve_empty_iff n (intTokens s) []
  · rw [hrw]
    split
    · exact (List.nodup_range' _ _).sublist (List.take_sublist _ _)
    · exact (rankSieve_nodup n (intTokens s) []).sublist (List.take_sublist _ _)
  · rw [hrw]
    exact List.length_take_le _ _
  · rw [hrw]
    intro x hx
    have hx' := List.mem_of_mem_take hx
    split at hx'
    · have := List.mem_range'.mp hx'
      omega
    · exact rankSieve_bounds n (intTokens s) [] x hx'

/-- Witness for C6 at a concrete input. -/
theorem C6_parse_ranking_spec_witness :
    parse_ranking "1, 5, 99, 3" 10 5 =
      (if rankSieve 10 [] (intTokens "1, 5, 99, 3") = [] then List.range' 1 (min 5 10)
       else rankSieve 10 [] (intTokens "1, 5, 99, 3")).take 5 ∧
    (rankSieve 10 [] (intTokens "1, 5, 99, 3") = [] ↔
      ∀ t ∈ intTokens "1, 5, 99, 3", ¬(1 ≤ t ∧ t ≤ 10)) ∧
    (parse_ranking "1, 5, 99, 3" 10 5).Nodup ∧
    (parse_ranking "1, 5, 99, 3" 10 5).length ≤ 5 ∧
    (∀ x ∈ parse_ranking "1, 5, 99, 3" 10 5, 1 ≤ x ∧ x ≤ 10) :=
  C6_parse_ranking_spec "1, 5, 99, 3" 10 5 (by decide) (by decide)

/-! ## Lemmas for the final-answer parsers -/

theorem ternAt_mem (l : List Char) (v : Int) (h : ternAt l = some v) :
    v = -1 ∨ v = 0 ∨ v = 1 := by
  unfold ternAt at h
  split at h <;> try split at h
  all_goals simp_all
  all_goals omega

theorem searchTernAux_mem (l : List Char) (v : Int) (h : searchTernAux l = some v) :
    v = -1 ∨ v = 0 ∨ v = 1 := by
  induction l with
  | nil => simp [searchTernAux] at h
  | cons c cs ih =>
    unfold searchTernAux at h
    split at h
    · cases hm : ternAt cs with
      | some w => rw [hm] at h; exact (Option.some.injEq _ _ ▸ h) ▸ ternAt_mem cs w hm
      | none => rw [hm] at h; exact ih h
    · exact ih h

theorem searchTern_mem (l : List Char) (v : Int) (h : searchTern l = some v) :
    v = -1 ∨ v = 0 ∨ v = 1 := by
  unfold searchTern at h
  cases hm : ternAt l with
  | some w => rw [hm] at h; exact (Option.some.injEq _ _ ▸ h) ▸ ternAt_mem l w hm
  | none => rw [hm] at h; exact searchTernAux_mem l v h

/-! ## Claim C7 -/

/-- C7: parse_final_answer always returns a value in the set containing -1, 0
and 1, following the cascade exact-token, regex search, keyword heuristics; in
particular the text "ANSWER: 1 ..." parses to 1 and the text
"not recommend, too loud" parses to -1. -/
theorem C7_parse_final_answer_ternary :
    (∀ s : String, parse_final_answer s = -1 ∨ parse_final_answer s = 0 ∨ parse_final_answer s = 1) ∧
    parse_final_answer "ANSWER: 1 ..." = 1 ∧
    parse_final_answer "not recommend, too loud" = -1 := by
  refine ⟨?_, by decide, by decide⟩
  intro s
  unfold parse_final_answer parseFinalStripped
  split
  · split
    · exact Or.inl rfl
    · split
      · exact Or.inr (Or.inl rfl)
      · exact Or.inr (Or.inr rfl)
  · cases hm : searchTern (pyStrip s).data with
    | some v => simpa [hm] using searchTern_mem _ v hm
    | none =>
      simp only [hm]
      split
      · exact Or.inl rfl
      · split
        · exact Or.inr (Or.inr rfl)
        · exact Or.inr (Or.inl rfl)

/-! ## Reassembly of the reference scan -/

theorem scanAccBody_spec : ∀ (l body rem : List Char),
    scanAccBody l = some (body, rem) → l = body ++ ']' :: rem := by
  intro l
  induction l with
  | nil => intro b r h; simp [scanAccBody] at h
  | cons c cs ih =>
    intro b r h
    unfold scanAccBody at h
    split at h
    · rename_i hc
      cases h
      simp [hc]
    · rename_i hc
      cases hrec : scanAccBody cs with
      | none => rw [hrec] at h; cases h
      | some p =>
        rw [hrec] at h
        cases p with
        | mk b0 r0 =>
          injection h with h2
          injection h2 with hb hr
          subst hb
          subst hr
          simpa using ih b0 r0 hrec

theorem parseAccessors_spec : ∀ (l : List Char) (accs : List String) (k : Nat),
    parseAccessors l = (accs, k) →
      accsText accs ++ l.drop k = l ∧ k = (accsText accs).length := by
  have main : ∀ (n : Nat) (l : List Char), l.length ≤ n →
      ∀ (accs : List String) (k : Nat), parseAccessors l = (accs, k) →
        accsText accs ++ l.drop k = l ∧ k = (accsText accs).length := by
    intro n
    induction n with
    | zero =>
      intro l hl accs k h
      have hemp : l = [] := List.length_eq_zero.mp (Nat.le_zero.mp hl)
      subst hemp
      unfold parseAccessors at h
      cases h
      simp [accsText]
    | succ n ihn =>
      intro l hl accs k h
      unfold parseAccessors at h
      split at h
      · rename_i rest
        split at h
        · rename_i b bs snd hsc
          dsimp only [] at h
          cases h
          rcases hpa : parseAccessors (rest.drop ((b :: bs).length + 1)) with ⟨accs0, k0⟩
          have hrest : rest = (b :: bs) ++ ']' :: snd := scanAccBody_spec rest _ _ hsc
          have hdrop : rest.drop ((b :: bs).length + 1) = snd := by
            rw [hrest]
            rw [show (b :: bs).length + 1 = ((b :: bs) ++ [']']).length by simp]
            rw [show (b :: bs) ++ ']' :: snd = ((b :: bs) ++ [']']) ++ snd by simp]
            exact List.drop_left _ _
          have hlen : (rest.drop ((b :: bs).length + 1)).length ≤ n := by
            have h1 : rest.length + 1 ≤ n + 1 := by simpa using hl
            have h2 : (rest.drop ((b :: bs).length + 1)).length ≤ rest.length := by
              simp [List.length_drop]
            omega
          obtain ⟨hA, hB⟩ := ihn _ hlen accs0 k0 hpa
          have hsndA : accsText accs0 ++ snd.drop k0 = snd := by
            rw [hdrop] at hA
            exact hA
          have hmk : (String.mk (b :: bs)).data = b :: bs := rfl
          constructor
          · show accsText (String.mk (b :: bs) :: accs0) ++
              (('[' :: rest).drop ((b :: bs).length + 2 + k0)) = '[' :: rest
            have hd2 : ('[' :: rest).drop ((b :: bs).length + 2 + k0) = snd.drop k0 := by
              rw [show ('[' :: rest) = ('[' :: ((b :: bs) ++ [']'])) ++ snd by simp [hrest]]
              rw [show (b :: bs).length + 2 + k0 = ('[' :: ((b :: bs) ++ [']'])).length + k0 by simp]
              rw [List.drop_append]
            rw [hd2]
            calc accsText (String.mk (b :: bs) :: accs0) ++ snd.drop k0
                = ('[' :: ((b :: bs) ++ [']'])) ++ (accsText accs0 ++ snd.drop k0) := by
                  simp [accsText, hmk]
              _ = ('[' :: ((b :: bs) ++ [']'])) ++ snd := by rw [hsndA]
              _ = '[' :: rest := by simp [hrest]
          · show (b :: bs).length + 2 + k0 = (accsText (String.mk (b :: bs) :: accs0)).length
            have : (accsText (String.mk (b :: bs) :: accs0)).length
                = ((b :: bs).length + 2) + (accsText accs0).length := by
              simp [accsText, hmk]
              omega
            rw [this, hB]
        · cases h
          simp [accsText]
      · cases h
        simp [accsText]
  intro l accs k h
  exact main l.length l (Nat.le_refl _) accs k h

theorem tryMatchRef_spec (l : List Char) (name : String) (accs : List String) (k : Nat)
    (h : tryMatchRef l = some (name, accs, k)) :
    refText name accs ++ l.drop k = l ∧ k = (refText name accs).length ∧ 1 ≤ k := by
  unfold tryMatchRef at h
  split at h
  · rename_i rest
    split at h
    · rename_i n ns rest2 ht hd
      dsimp only [] at h
      injection h with h1
      injection h1 with hname h2
      injection h2 with haccs hk
      subst hname
      subst haccs
      subst hk
      rcases hpa : parseAccessors rest2 with ⟨accs0, k0⟩
      have hrest : rest = (n :: ns) ++ ')' :: '\x7d' :: rest2 := by
        conv_lhs => rw [← List.takeWhile_append_dropWhile (p := isWordCh) (l := rest)]
        rw [ht, hd]
      obtain ⟨hA, hB⟩ := parseAccessors_spec rest2 accs0 k0 hpa
      have hmk : (String.mk (n :: ns)).data = n :: ns := rfl
      refine ⟨?_, ?_, ?_⟩
      · show refText (String.mk (n :: ns)) accs0 ++
          (('\x7b' :: '(' :: rest).drop ((n :: ns).length + 4 + k0)) = '\x7b' :: '(' :: rest
        have hd2 : ('\x7b' :: '(' :: rest).drop ((n :: ns).length + 4 + k0) = rest2.drop k0 := by
          rw [show ('\x7b' :: '(' :: rest) =
            ('\x7b' :: '(' :: ((n :: ns) ++ [')', '\x7d'])) ++ rest2 by simp [hrest]]
          rw [show (n :: ns).length + 4 + k0 =
            ('\x7b' :: '(' :: ((n :: ns) ++ [')', '\x7d'])).length + k0 by simp]
          rw [List.drop_append]
        rw [hd2]
        calc refText (String.mk (n :: ns)) accs0 ++ rest2.drop k0
            = '\x7b' :: '(' :: ((n :: ns) ++ ')' :: '\x7d' :: (accsText accs0 ++ rest2.drop k0)) := by
              simp [refText, hmk]
          _ = '\x7b' :: '(' :: ((n :: ns) ++ ')' :: '\x7d' :: rest2) := by rw [hA]
          _ = '\x7b' :: '(' :: rest := by rw [hrest]
      · show (n :: ns).length + 4 + k0 = (refText (String.mk (n :: ns)) accs0).length
        have : (refText (String.mk (n :: ns)) accs0).length
            = (n :: ns).length + 4 + (accsText accs0).length := by
          simp [refText, hmk]
          omega
        rw [this, hB]
      · omega
    · cases h
  · cases h

theorem scanTemplate_reassemble : ∀ l : List Char, segsText (scanTemplate l) = l := by
  have main : ∀ (n : Nat) (l : List Char), l.length ≤ n → segsText (scanTemplate l) = l := by
    intro n
    induction n with
    | zero =>
      intro l hl
      have hemp : l = [] := List.length_eq_zero.mp (Nat.le_zero.mp hl)
      subst hemp
      simp [scanTemplate, segsText]
    | succ n ihn =>
      intro l hl
      match l with
      | [] => simp [scanTemplate, segsText]
      | c :: cs =>
        unfold scanTemplate
        cases hm : tryMatchRef (c :: cs) with
        | some p =>
          rcases p with ⟨name, accs, k⟩
          obtain ⟨hA, hB, hk1⟩ := tryMatchRef_spec _ _ _ _ hm
          have hdropeq : cs.drop (k - 1) = (c :: cs).drop k := by
            cases k with
            | zero => omega
            | succ k0 => simp
          have hlen : (cs.drop (k - 1)).length ≤ n := by
            have : (cs.drop (k - 1)).length ≤ cs.length := by simp [List.length_drop]
            have : cs.length + 1 ≤ n + 1 := by simpa using hl
            omega
          simp only [segsText, List.map_cons, List.flatten_cons]
          rw [show segText (Seg.ref name accs) = refText name accs from rfl]
          have hrec := ihn (cs.drop (k - 1)) hlen
          rw [show segsText (scanTemplate (cs.drop (k - 1)))
              = (List.map segText (scanTemplate (cs.drop (k - 1)))).flatten from rfl] at hrec
          rw [hrec, hdropeq, hA]
        | none =>
          have hlen : cs.length ≤ n := by simpa using hl
          simp only [segsText, List.map_cons, List.flatten_cons]
          rw [show segText (Seg.lit c) = [c] from rfl]
          have hrec := ihn cs hlen
          rw [show segsText (scanTemplate cs)
              = (List.map segText (scanTemplate cs)).flatten from rfl] at hrec
          rw [hrec]
          rfl
  intro l
  exact main l.length l (Nat.le_refl _)

theorem hasRefB_false_scanTemplate : ∀ l : List Char,
    hasRefB l = false → scanTemplate l = l.map Seg.lit := by
  intro l
  induction l with
  | nil => intro h; simp [scanTemplate]
  | cons c cs ih =>
    intro h
    unfold hasRefB at h
    simp only [Bool.or_eq_false_iff] at h
    obtain ⟨h1, h2⟩ := h
    have hnone : tryMatchRef (c :: cs) = none := Option.not_isSome_iff_eq_none.mp (by simp [h1])
    unfold scanTemplate
    rw [hnone]
    simp [ih h2]

theorem renderSegs_map_lit (f : String → List String → String) :
    ∀ l : List Char, renderSegs f (l.map Seg.lit) = l := by
  intro l
  induction l with
  | nil => simp [renderSegs]
  | cons c cs ih => simpa [renderSegs] using ih

theorem resolveRef_unresolved (lit : String → Option Val) (query context : Val)
    (cache : List (String × Val)) (name : String)
    (h1 : name ≠ "input") (h2 : name ≠ "context") (h3 : lookupCache cache name = none) :
    resolveRef lit query context cache name [] = "" := by
  unfold resolveRef
  rw [if_neg h1, if_neg h2, h3]
  rfl

/-! ## Claim C3 -/

/-- C3 (amended): substitute_variables is one total left-to-right pass: the
scan decomposes the template exactly (segments reassemble to the very
template), a template without reference markers is returned unchanged, and a
reference to a name that is no fixed input and absent from the cache resolves
to the empty string.  (Markers can still appear in the output when replacement
text abuts marker fragments, see the counterexample.) -/
theorem C3_substitute_single_pass (lit : String → Option Val) (instr : String)
    (query context : Val) (cache : List (String × Val)) (name : String)
    (h1 : name ≠ "input") (h2 : name ≠ "context") (h3 : lookupCache cache name = none) :
    segsText (scanTemplate instr.data) = instr.data ∧
    (hasRefB instr.data = false → substitute_variables lit instr query context cache = instr) ∧
    resolveRef lit query context cache name [] = "" := by
  refine ⟨scanTemplate_reassemble instr.data, ?_, resolveRef_unresolved _ _ _ _ _ h1 h2 h3⟩
  intro hno
  unfold substitute_variables
  rw [hasRefB_false_scanTemplate _ hno, renderSegs_map_lit]

/-- Witness for C3 at a concrete input. -/
theorem C3_substitute_single_pass_witness :
    segsText (scanTemplate ("score \x7b(0)\x7d ok").data) = ("score \x7b(0)\x7d ok").data ∧
    (hasRefB ("score \x7b(0)\x7d ok").data = false →
      substitute_variables (fun _ => none) "score \x7b(0)\x7d ok" (.vstr "q") (.vstr "c")
        [("1", .vstr "A")] = "score \x7b(0)\x7d ok") ∧
    resolveRef (fun _ => none) (.vstr "q") (.vstr "c") [("1", .vstr "A")] "0" [] = "" :=
  C3_substitute_single_pass (fun _ => none) "score \x7b(0)\x7d ok" (.vstr "q") (.vstr "c")
    [("1", .vstr "A")] "0" (by decide) (by decide) (by simp [lookupCache])

/-- C3 counterexample: the output can contain a reference marker of the
grammar even though every marker of the template was substituted (with an
empty cache, so the inner reference resolves to the empty string): the
template brace-paren brace-paren a paren-brace x paren-brace collapses to a
fresh marker around x. -/
theorem C3_counterexample :
    substitute_variables (fun _ => none) "\x7b(\x7b(a)\x7dx)\x7d" (.vstr "") (.vstr "") []
        = "\x7b(x)\x7d" ∧
    hasRefB ("\x7b(x)\x7d").data = true := by
  constructor
  · simp +decide [substitute_variables, scanTemplate, tryMatchRef, parseAccessors, scanAccBody,
      isWordCh, List.takeWhile, List.dropWhile, renderSegs, resolveRef, lookupCache, renderVal]
  · simp +decide [hasRefB, tryMatchRef, parseAccessors, scanAccBody,
      isWordCh, List.takeWhile, List.dropWhile]

/-! ## Claim C4 -/

theorem applyAcc_vstr (s : String) (acc : String) : applyAcc (.vstr s) acc = .vstr "" := rfl

theorem foldl_applyAcc_empty : ∀ (accs : List String),
    accs.foldl applyAcc (Val.vstr "") = Val.vstr "" := by
  intro accs
  induction accs with
  | nil => rfl
  | cons a rest ih => simpa [applyAcc_vstr] using ih

/-- C4 (amended): accessor application is left-to-right with these rules: a
missing map key under a non-integer-like accessor and an out-of-range list
index collapse to the empty string and every later accessor keeps it empty;
an integer-like accessor matches a string-typed key first and an
integer-typed key second (numeric coercion both ways); a map key missing
under an integer-like accessor resolves to null, which renders as the
literal text None when it is the direct resolution target and collapses to
the empty string under any further accessor; concretely the Milkcrate
template for item 1 resolves to the WiFi string and for item 99 to the
empty string. -/
theorem C4_accessor_resolution :
    (∀ (kvs : List (DKey × Val)) (acc : String), isDigitStr acc = false →
      dictGetStr kvs acc = none → applyAcc (.vdict kvs) acc = .vstr "") ∧
    (∀ (xs : List Val) (acc : String), isDigitStr acc = true →
      xs.length ≤ digitsToNat acc.data → applyAcc (.vlist xs) acc = .vstr "") ∧
    (∀ (accs : List String), accs.foldl applyAcc (Val.vstr "") = Val.vstr "") ∧
    (∀ (kvs : List (DKey × Val)) (acc : String) (v : Val),
      dictGetStr kvs acc = some v → applyAcc (.vdict kvs) acc = v) ∧
    (∀ (kvs : List (DKey × Val)) (acc : String) (v : Val),
      dictGetStr kvs acc = none → isDigitStr acc = true →
      dictGetInt kvs (Int.ofNat (digitsToNat acc.data)) = some v →
      applyAcc (.vdict kvs) acc = v) ∧
    (∀ (kvs : List (DKey × Val)) (acc : String),
      dictGetStr kvs acc = none → isDigitStr acc = true →
      dictGetInt kvs (Int.ofNat (digitsToNat acc.data)) = none →
      applyAcc (.vdict kvs) acc = .vnone ∧ renderVal .vnone = "None" ∧
      (∀ (a : String) (rest : List String),
        renderVal ((a :: rest).foldl applyAcc Val.vnone) = "")) ∧
    substitute_variables (fun _ => none) "\x7b(context)\x7d[1][attributes][WiFi]" (.vstr "")
      (Val.vdict [(DKey.ks "1", Val.vdict [(DKey.ks "name", Val.vstr "Milkcrate Cafe"),
        (DKey.ks "attributes", Val.vdict [(DKey.ks "WiFi", Val.vstr "u'free'")])])]) []
      = "u'free'" ∧
    substitute_variables (fun _ => none) "\x7b(context)\x7d[99][attributes][WiFi]" (.vstr "")
      (Val.vdict [(DKey.ks "1", Val.vdict [(DKey.ks "name", Val.vstr "Milkcrate Cafe"),
        (DKey.ks "attributes", Val.vdict [(DKey.ks "WiFi", Val.vstr "u'free'")])])]) []
      = "" := by
  refine ⟨?_, ?_, foldl_applyAcc_empty, ?_, ?_, ?_, ?_, ?_⟩
  · intro kvs acc hdig hmiss
    simp [applyAcc, hmiss, hdig]
  · intro xs acc hdig hoob
    have hlt : ¬(digitsToNat acc.data < xs.length) := by omega
    simp [applyAcc, hdig, hlt]
  · intro kvs acc v hget
    simp [applyAcc, hget]
  · intro kvs acc v hmiss hdig hint
    simp only [Int.ofNat_eq_coe] at hint
    simp [applyAcc, hmiss, hdig, hint]
  · intro kvs acc hmiss hdig hint
    simp only [Int.ofNat_eq_coe] at hint
    refine ⟨by simp [applyAcc, hmiss, hdig, hint], rfl, ?_⟩
    intro a rest
    have h1 : applyAcc Val.vnone a = .vstr "" := rfl
    simp [List.foldl_cons, h1, foldl_applyAcc_empty, renderVal]
  · simp +decide [substitute_variables, scanTemplate, tryMatchRef, parseAccessors, scanAccBody,
      isWordCh, List.takeWhile, List.dropWhile, renderSegs, resolveRef, lookupCache, renderVal,
      applyAcc, dictGetStr, dictGetInt, isDigitStr, isContainer, digitsToNat]
  · simp +decide [substitute_variables, scanTemplate, tryMatchRef, parseAccessors, scanAccBody,
      isWordCh, List.takeWhile, List.dropWhile, renderSegs, resolveRef, lookupCache, renderVal,
      applyAcc, dictGetStr, dictGetInt, isDigitStr, isContainer, digitsToNat]

/-- C4 counterexample: a map key missing under an integer-like accessor in
direct position renders as the literal text None, not as the empty string the
claim asserts for every missing map key. -/
theorem C4_counterexample :
    substitute_variables (fun _ => none) "\x7b(input)\x7d[7]"
        (Val.vdict [(DKey.ks "a", Val.vstr "x")]) (.vstr "") [] = "None" ∧
    ("None" : String) ≠ "" := by
  constructor
  · simp +decide [substitute_variables, scanTemplate, tryMatchRef, parseAccessors, scanAccBody,
      isWordCh, List.takeWhile, List.dropWhile, renderSegs, resolveRef, lookupCache, renderVal,
      applyAcc, dictGetStr, dictGetInt, isDigitStr, isContainer, digitsToNat]
  · decide

/-- Witness for C4 at concrete inputs. -/
theorem C4_accessor_resolution_witness :
    applyAcc (.vdict [(DKey.ks "a", Val.vstr "x")]) "zz" = .vstr "" ∧
    applyAcc (.vlist [Val.vstr "x"]) "5" = .vstr "" ∧
    applyAcc (.vdict [(DKey.ks "7", Val.vstr "s")]) "7" = .vstr "s" ∧
    applyAcc (.vdict [(DKey.ki 7, Val.vstr "y")]) "7" = .vstr "y" ∧
    applyAcc (.vdict [(DKey.ks "a", Val.vstr "x")]) "7" = Val.vnone := by
  obtain ⟨p1, p2, _, p4, p5, p6, _, _⟩ := C4_accessor_resolution
  refine ⟨p1 _ "zz" rfl rfl, p2 [Val.vstr "x"] "5" rfl (by decide), p4 _ "7" _ rfl,
    p5 _ "7" _ rfl rfl rfl, (p6 [(DKey.ks "a", Val.vstr "x")] "7" rfl rfl rfl).1⟩

/-! ## Basic facts about the layer builder's assigned set and candidate scan -/

theorem addIds_mem : ∀ (ids a : List String) (i : String),
    i ∈ addIds a ids ↔ i ∈ a ∨ i ∈ ids := by
  intro ids
  induction ids with
  | nil => intro a i; simp [addIds]
  | cons j rest ih =>
    intro a i
    show i ∈ addIds (if a.contains j then a else a ++ [j]) rest ↔ _
    by_cases hmem : a.contains j
    · rw [if_pos hmem]
      rw [ih a i]
      constructor
      · rintro (h | h)
        · exact Or.inl h
        · exact Or.inr (List.mem_cons_of_mem _ h)
      · rintro (h | h)
        · exact Or.inl h
        · rcases List.mem_cons.mp h with rfl | h
          · exact Or.inl (by simpa using hmem)
          · exact Or.inr h
    · rw [if_neg hmem]
      rw [ih (a ++ [j]) i]
      constructor
      · rintro (h | h)
        · rcases List.mem_append.mp h with h | h
          · exact Or.inl h
          · obtain rfl : i = j := by simpa using h
            exact Or.inr (List.mem_cons_self _ _)
        · exact Or.inr (List.mem_cons_of_mem _ h)
      · rintro (h | h)
        · exact Or.inl (List.mem_append.mpr (Or.inl h))
        · rcases List.mem_cons.mp h with rfl | h
          · exact Or.inl (List.mem_append.mpr (Or.inr (by simp)))
          · exact Or.inr h

theorem addIds_nodup : ∀ (ids a : List String), a.Nodup → (addIds a ids).Nodup := by
  intro ids
  induction ids with
  | nil => intro a h; simpa [addIds] using h
  | cons j rest ih =>
    intro a h
    show (addIds (if a.contains j then a else a ++ [j]) rest).Nodup
    by_cases hmem : a.contains j
    · rw [if_pos hmem]; exact ih a h
    · rw [if_neg hmem]
      refine ih (a ++ [j]) ?_
      rw [List.nodup_append]
      refine ⟨h, List.nodup_singleton _, ?_⟩
      intro x hx
      simp only [List.mem_singleton]
      intro hxj
      subst hxj
      exact (by simpa using hmem : x ∉ a) hx

theorem addIds_length_le : ∀ (ids a : List String), a.length ≤ (addIds a ids).length := by
  intro ids
  induction ids with
  | nil => intro a; exact Nat.le_refl _
  | cons i rest ih =>
    intro a
    show a.length ≤ (addIds (if a.contains i then a else a ++ [i]) rest).length
    by_cases hmem : a.contains i
    · rw [if_pos hmem]; exact ih a
    · rw [if_neg hmem]
      calc a.length ≤ (a ++ [i]).length := by simp
        _ ≤ _ := ih (a ++ [i])

theorem addIds_length_lt : ∀ (ids a : List String), (∃ i ∈ ids, a.contains i = false) →
    a.length < (addIds a ids).length := by
  intro ids
  induction ids with
  | nil => intro a hex; exact absurd hex (by simp)
  | cons i rest ih =>
    intro a hex
    show a.length < (addIds (if a.contains i then a else a ++ [i]) rest).length
    by_cases hmem : a.contains i
    · rw [if_pos hmem]
      obtain ⟨j, hj, hjn⟩ := hex
      rcases List.mem_cons.mp hj with rfl | hj
      · rw [hmem] at hjn; cases hjn
      · exact ih a ⟨j, hj, hjn⟩
    · rw [if_neg hmem]
      calc a.length < (a ++ [i]).length := by simp
        _ ≤ _ := addIds_length_le rest (a ++ [i])

theorem mem_layerCandidates (steps : List (String × String)) (a : List String)
    (s : String × String) :
    s ∈ layerCandidates steps a ↔
      s ∈ steps ∧ s.1 ∉ a ∧ ∀ d ∈ stepDeps steps s.1, d ∈ a := by
  unfold layerCandidates
  rw [List.mem_filter]
  constructor
  · rintro ⟨h1, h2⟩
    simp only [Bool.and_eq_true, Bool.not_eq_true', List.all_eq_true] at h2
    refine ⟨h1, by simpa using h2.1, ?_⟩
    intro d hd
    simpa using h2.2 d hd
  · rintro ⟨h1, h2, h3⟩
    refine ⟨h1, ?_⟩
    simp only [Bool.and_eq_true, Bool.not_eq_true', List.all_eq_true]
    exact ⟨by simpa using h2, fun d hd => by simpa using h3 d hd⟩

theorem contains_congr (a b : List String) (h : ∀ i, i ∈ a ↔ i ∈ b) (x : String) :
    a.contains x = b.contains x := by
  by_cases hm : x ∈ a
  · have hb := (h x).mp hm
    simp [hm, hb]
  · have hb : x ∉ b := fun hc => hm ((h x).mpr hc)
    simp [hm, hb]

theorem layerCandidates_congr (steps : List (String × String)) (a b : List String)
    (h : ∀ i, i ∈ a ↔ i ∈ b) :
    layerCandidates steps a = layerCandidates steps b := by
  unfold layerCandidates
  have hfun : (fun d => a.contains d) = (fun d => b.contains d) :=
    funext (contains_congr a b h)
  refine List.filter_congr ?_
  intro s hs
  rw [contains_congr a b h s.1, hfun]

/-! ## The scanning loop produces exactly the Layered chain -/

theorem nodup_subset_length (l m : List String) (h : l.Nodup) (hs : l ⊆ m) :
    l.length ≤ m.length := by
  classical
  calc l.length = l.toFinset.card := (List.toFinset_card_of_nodup h).symm
    _ ≤ m.toFinset.card := Finset.card_le_card (fun x hx => by
        simp only [List.mem_toFinset] at hx ⊢
        exact hs hx)
    _ ≤ m.length := m.toFinset_card_le

theorem assigned_full_of_guard_false (steps : List (String × String)) (assigned : List String)
    (h1 : assigned.Nodup) (h2 : ∀ i ∈ assigned, ∃ s ∈ steps, s.1 = i)
    (hguard : ¬assigned.length < steps.length) :
    ∀ s ∈ steps, s.1 ∈ assigned := by
  intro s hs
  by_contra hmem
  have hsub : (s.1 :: assigned) ⊆ steps.map (fun t => t.1) := by
    intro x hx
    rcases List.mem_cons.mp hx with rfl | hx
    · exact List.mem_map.mpr ⟨s, hs, rfl⟩
    · obtain ⟨t, ht, hteq⟩ := h2 x hx
      exact List.mem_map.mpr ⟨t, ht, hteq⟩
  have hnd : (s.1 :: assigned).Nodup := List.nodup_cons.mpr ⟨hmem, h1⟩
  have := nodup_subset_length _ _ hnd hsub
  simp only [List.length_cons, List.length_map] at this
  omega

theorem layersLoop_ok_spec (steps : List (String × String)) :
    ∀ (N : Nat) (assigned : List String) (acc L : List (List (String × String))),
      steps.length - assigned.length ≤ N →
      assigned.Nodup → (∀ i ∈ assigned, ∃ s ∈ steps, s.1 = i) →
      layersLoop steps assigned acc = .ok L →
      ∃ S, L = acc.reverse ++ S ∧ Layered steps assigned S := by
  intro N
  induction N with
  | zero =>
    intro assigned acc L hN h1 h2 h
    have hguard : ¬assigned.length < steps.length := by omega
    unfold layersLoop at h
    rw [if_neg hguard] at h
    injection h with hL
    refine ⟨[], by simp [hL.symm], Layered.done assigned ?_⟩
    exact assigned_full_of_guard_false steps assigned h1 h2 hguard
  | succ N ihN =>
    intro assigned acc L hN h1 h2 h
    unfold layersLoop at h
    by_cases hguard : assigned.length < steps.length
    · rw [if_pos hguard] at h
      by_cases hcur : (layerCandidates steps assigned).isEmpty
      · rw [dif_pos hcur] at h
        by_cases hrem : (steps.filter (fun s => !(assigned.contains s.1))).isEmpty
        · rw [if_pos hrem] at h
          injection h with hL
          refine ⟨[], by simp [hL.symm], Layered.done assigned ?_⟩
          intro s hs
          by_contra hmem
          have : s ∈ steps.filter (fun s => !(assigned.contains s.1)) := by
            refine List.mem_filter.mpr ⟨hs, ?_⟩
            simp only [Bool.not_eq_true']
            simpa using hmem
          rw [List.isEmpty_iff] at hrem
          rw [hrem] at this
          cases this
        · rw [if_neg hrem] at h
          cases h
      · rw [dif_neg hcur] at h
        have hne : layerCandidates steps assigned ≠ [] := by
          intro hc
          rw [List.isEmpty_iff] at hcur
          exact hcur hc
        have hgrow : assigned.length <
            (addIds assigned ((layerCandidates steps assigned).map (fun s => s.1))).length := by
          refine addIds_length_lt _ _ ?_
          rcases hc0 : layerCandidates steps assigned with _ | ⟨s0, rest0⟩
          · exact absurd hc0 hne
          · refine ⟨s0.1, by simp [hc0], ?_⟩
            have hs0 : s0 ∈ layerCandidates steps assigned := by
              rw [hc0]; exact List.mem_cons_self _ _
            have := (mem_layerCandidates steps assigned s0).mp hs0
            simpa using this.2.1
        have hN2 : steps.length -
            (addIds assigned ((layerCandidates steps assigned).map (fun s => s.1))).length ≤ N := by
          omega
        have hnd2 : (addIds assigned ((layerCandidates steps assigned).map (fun s => s.1))).Nodup :=
          addIds_nodup _ _ h1
        have hsub2 : ∀ i ∈ addIds assigned ((layerCandidates steps assigned).map (fun s => s.1)),
            ∃ s ∈ steps, s.1 = i := by
          intro i hi
          rcases (addIds_mem _ _ i).mp hi with hi | hi
          · exact h2 i hi
          · obtain ⟨t, ht, hteq⟩ := List.mem_map.mp hi
            exact ⟨t, ((mem_layerCandidates steps assigned t).mp ht).1, hteq⟩
        obtain ⟨S, hLS, hLay⟩ := ihN _ _ _ hN2 hnd2 hsub2 h
        refine ⟨layerCandidates steps assigned :: S, ?_, Layered.step assigned S hne hLay⟩
        rw [hLS]
        simp
    · rw [if_neg hguard] at h
      injection h with hL
      refine ⟨[], by simp [hL.symm], Layered.done assigned ?_⟩
      exact assigned_full_of_guard_false steps assigned h1 h2 hguard

theorem satIds_closed (steps : List (String × String)) : SatClosed steps (satIds steps) := by
  intro s hs hdeps X hX
  exact hX s hs (fun d hd => hdeps d hd X hX)

theorem satIds_least (steps : List (String × String)) (X : Set String)
    (hX : SatClosed steps X) : ∀ i ∈ satIds steps, i ∈ X :=
  fun i hi => hi X hX

theorem layersLoop_err_spec (steps : List (String × String)) :
    ∀ (N : Nat) (assigned : List String) (acc : List (List (String × String)))
      (ids : List String),
      steps.length - assigned.length ≤ N →
      (∀ i ∈ assigned, i ∈ satIds steps) →
      layersLoop steps assigned acc = .error ids →
      ids ≠ [] ∧ ∀ i, i ∈ ids ↔ ∃ s ∈ steps, s.1 = i ∧ i ∉ satIds steps := by
  intro N
  induction N with
  | zero =>
    intro assigned acc ids hN hinv h
    have hguard : ¬assigned.length < steps.length := by omega
    unfold layersLoop at h
    rw [if_neg hguard] at h
    cases h
  | succ N ihN =>
    intro assigned acc ids hN hinv h
    unfold layersLoop at h
    by_cases hguard : assigned.length < steps.length
    · rw [if_pos hguard] at h
      by_cases hcur : (layerCandidates steps assigned).isEmpty
      · rw [dif_pos hcur] at h
        by_cases hrem : (steps.filter (fun s => !(assigned.contains s.1))).isEmpty
        · rw [if_pos hrem] at h; cases h
        · rw [if_neg hrem] at h
          injection h with hids
          subst hids
          have hstall : SatClosed steps { i | i ∈ assigned } := by
            intro s hs hdeps
            by_contra hmem
            have : s ∈ layerCandidates steps assigned :=
              (mem_layerCandidates steps assigned s).mpr ⟨hs, hmem, fun d hd => hdeps d hd⟩
            rw [List.isEmpty_iff.mp hcur] at this
            cases this
          have hsat_sub : ∀ i ∈ satIds steps, i ∈ assigned :=
            satIds_least steps _ hstall
          constructor
          · rw [List.isEmpty_iff] at hrem
            intro hc
            exact hrem (List.map_eq_nil_iff.mp hc)
          · intro i
            constructor
            · intro hi
              obtain ⟨t, ht, hteq⟩ := List.mem_map.mp hi
              have hfil := List.mem_filter.mp ht
              refine ⟨t, hfil.1, hteq, ?_⟩
              intro hsat
              have : i ∈ assigned := hsat_sub i hsat
              have h2 := hfil.2
              simp only [Bool.not_eq_true'] at h2
              rw [← hteq] at this
              exact (by simpa using h2 : t.1 ∉ assigned) this
            · rintro ⟨t, ht, hteq, hnsat⟩
              refine List.mem_map.mpr ⟨t, ?_, hteq⟩
              refine List.mem_filter.mpr ⟨ht, ?_⟩
              simp only [Bool.not_eq_true']
              have : t.1 ∉ assigned := by
                intro hc
                exact hnsat (hteq ▸ hinv t.1 hc)
              simpa using this
      · rw [dif_neg hcur] at h
        have hne : layerCandidates steps assigned ≠ [] := fun hc =>
          hcur (by rw [List.isEmpty_iff]; exact hc)
        have hgrow : assigned.length <
            (addIds assigned ((layerCandidates steps assigned).map (fun s => s.1))).length := by
          refine addIds_length_lt _ _ ?_
          rcases hc0 : layerCandidates steps assigned with _ | ⟨s0, rest0⟩
          · exact absurd hc0 hne
          · refine ⟨s0.1, by simp [hc0], ?_⟩
            have hs0 : s0 ∈ layerCandidates steps assigned := by
              rw [hc0]; exact List.mem_cons_self _ _
            have := (mem_layerCandidates steps assigned s0).mp hs0
            simpa using this.2.1
        have hinv2 : ∀ i ∈ addIds assigned ((layerCandidates steps assigned).map (fun s => s.1)),
            i ∈ satIds steps := by
          intro i hi
          rcases (addIds_mem _ _ i).mp hi with hi | hi
          · exact hinv i hi
          · obtain ⟨t, ht, hteq⟩ := List.mem_map.mp hi
            have hm := (mem_layerCandidates steps assigned t).mp ht
            rw [← hteq]
            exact satIds_closed steps t hm.1 (fun d hd => hinv d (hm.2.2 d hd))
        exact ihN _ _ _ (by omega) hinv2 h
    · rw [if_neg hguard] at h
      cases h

theorem Layered_all_sat (steps : List (String × String)) :
    ∀ (S : List (List (String × String))) (assigned : List String),
      Layered steps assigned S → (∀ i ∈ assigned, i ∈ satIds steps) →
      ∀ s ∈ steps, s.1 ∈ satIds steps := by
  intro S
  induction S with
  | nil =>
    intro assigned hLay hinv s hs
    cases hLay with
    | done _ hall => exact hinv s.1 (hall s hs)
  | cons layer S ih =>
    intro assigned hLay hinv s hs
    cases hLay with
    | step _ _ hne hS =>
      refine ih _ hS ?_ s hs
      intro i hi
      rcases (addIds_mem _ _ i).mp hi with hi | hi
      · exact hinv i hi
      · obtain ⟨t, ht, hteq⟩ := List.mem_map.mp hi
        have hm := (mem_layerCandidates steps assigned t).mp ht
        rw [← hteq]
        exact satIds_closed steps t hm.1 (fun d hd => hinv d (hm.2.2 d hd))

/-! ## Claim C2 -/

/-- C2: on a non-empty step list in which some step can never have its
dependencies satisfied (its ID is outside the least assignability-closed
set), build_execution_layers raises an error whose ID list is non-empty and
contains exactly the step IDs outside that set; no layer list is returned. -/
theorem C2_cycle_error (steps : List (String × String)) (hne : steps ≠ [])
    (hstuck : ∃ s ∈ steps, s.1 ∉ satIds steps) :
    ∃ ids, build_execution_layers steps = .error ids ∧ ids ≠ [] ∧
      ∀ i, i ∈ ids ↔ ∃ s ∈ steps, s.1 = i ∧ i ∉ satIds steps := by
  unfold build_execution_layers
  rw [if_neg (by simpa [List.isEmpty_iff] using hne)]
  cases hres : layersLoop steps [] [] with
  | ok L =>
    exfalso
    obtain ⟨S, _, hLay⟩ := layersLoop_ok_spec steps steps.length [] [] L (by simp)
      List.nodup_nil (by simp) hres
    obtain ⟨s, hs, hns⟩ := hstuck
    exact hns (Layered_all_sat steps S [] hLay (by simp) s hs)
  | error ids =>
    obtain ⟨hne2, hiff⟩ := layersLoop_err_spec steps steps.length [] [] ids (by simp)
      (by simp) hres
    exact ⟨ids, rfl, hne2, hiff⟩

/-- Witness for C2: the two-step cycle where each step references the other. -/
theorem C2_cycle_error_witness :
    ∃ ids, build_execution_layers [("A", "\x7b(B)\x7d"), ("B", "\x7b(A)\x7d")] = .error ids ∧
      ids ≠ [] ∧
      ∀ i, i ∈ ids ↔ ∃ s ∈ [("A", "\x7b(B)\x7d"), ("B", "\x7b(A)\x7d")], s.1 = i ∧
        i ∉ satIds [("A", "\x7b(B)\x7d"), ("B", "\x7b(A)\x7d")] := by
  have hdepA : "B" ∈ stepDeps [("A", "\x7b(B)\x7d"), ("B", "\x7b(A)\x7d")] "A" := by
    simp +decide [stepDeps, extract_dependencies, depScan, tryMatchDep, isDepCh,
      List.takeWhile, List.dropWhile, input_vars, List.filter, List.getLast?]
  have hdepB : "A" ∈ stepDeps [("A", "\x7b(B)\x7d"), ("B", "\x7b(A)\x7d")] "B" := by
    simp +decide [stepDeps, extract_dependencies, depScan, tryMatchDep, isDepCh,
      List.takeWhile, List.dropWhile, input_vars, List.filter, List.getLast?]
  have hclosed : SatClosed [("A", "\x7b(B)\x7d"), ("B", "\x7b(A)\x7d")] (∅ : Set String) := by
    intro s hs hdeps
    rcases List.mem_cons.mp hs with rfl | hs
    · exact absurd (hdeps "B" hdepA) (Set.not_mem_empty _)
    · rcases List.mem_cons.mp hs with rfl | hs
      · exact absurd (hdeps "A" hdepB) (Set.not_mem_empty _)
      · cases hs
  refine C2_cycle_error _ (by simp) ⟨("A", "\x7b(B)\x7d"), by simp, ?_⟩
  intro hmem
  exact absurd (hmem ∅ hclosed) (Set.not_mem_empty _)

/-! ## Characterization of the produced layers -/

theorem mem_take_iff_get (L : List (List (String × String))) :
    ∀ (k : Nat) (layer : List (String × String)),
      layer ∈ L.take k ↔ ∃ j, ∃ hj : j < L.length, j < k ∧ L.get ⟨j, hj⟩ = layer := by
  induction L with
  | nil => intro k layer; simp
  | cons x L ih =>
    intro k layer
    cases k with
    | zero => simp
    | succ k =>
      simp only [List.take_succ_cons, List.mem_cons]
      constructor
      · rintro (rfl | h)
        · exact ⟨0, by simp, by omega, rfl⟩
        · obtain ⟨j, hj, hjk, hget⟩ := (ih k layer).mp h
          exact ⟨j + 1, by simpa using hj, by omega, by simpa using hget⟩
      · rintro ⟨j, hj, hjk, hget⟩
        cases j with
        | zero => exact Or.inl hget.symm
        | succ j =>
          refine Or.inr ((ih k layer).mpr ⟨j, by simpa using hj, by omega, ?_⟩)
          simpa using hget
    
theorem mem_layersIds_iff (L : List (List (String × String))) (k : Nat) (i : String) :
    i ∈ layersIds L k ↔
      ∃ j, ∃ hj : j < L.length, j < k ∧ ∃ t ∈ L.get ⟨j, hj⟩, t.1 = i := by
  unfold layersIds
  rw [List.mem_map]
  constructor
  · rintro ⟨t, ht, hteq⟩
    obtain ⟨layer, hlay, htl⟩ := List.mem_flatten.mp ht
    obtain ⟨j, hj, hjk, hget⟩ := (mem_take_iff_get L k layer).mp hlay
    exact ⟨j, hj, hjk, t, hget ▸ htl, hteq⟩
  · rintro ⟨j, hj, hjk, t, htl, hteq⟩
    refine ⟨t, List.mem_flatten.mpr ⟨L.get ⟨j, hj⟩, ?_, htl⟩, hteq⟩
    exact (mem_take_iff_get L k _).mpr ⟨j, hj, hjk, rfl⟩

theorem layersIds_mono (L : List (List (String × String))) (j k : Nat) (hjk : j ≤ k) :
    ∀ i ∈ layersIds L j, i ∈ layersIds L k := by
  intro i hi
  obtain ⟨m, hm, hmj, t, ht, hteq⟩ := (mem_layersIds_iff L j i).mp hi
  exact (mem_layersIds_iff L k i).mpr ⟨m, hm, by omega, t, ht, hteq⟩

theorem Layered_get (steps : List (String × String)) :
    ∀ (S : List (List (String × String))) (assigned : List String),
      Layered steps assigned S →
      ∀ (k : Nat) (hk : k < S.length),
        S.get ⟨k, hk⟩ =
          layerCandidates steps (assigned ++ ((S.take k).flatten).map (fun s => s.1)) := by
  intro S
  induction S with
  | nil => intro assigned _ k hk; simp at hk
  | cons layer S ih =>
    intro assigned hLay k hk
    cases hLay with
    | step _ _ hne hS =>
      cases k with
      | zero =>
        simp only [List.get, List.take_zero, List.flatten_nil, List.map_nil, List.append_nil]
      | succ k =>
        have hk2 : k < S.length := by simpa using hk
        have := ih _ hS k hk2
        rw [show (layerCandidates steps assigned :: S).get ⟨k + 1, hk⟩ = S.get ⟨k, hk2⟩ from rfl]
        rw [this]
        refine layerCandidates_congr steps _ _ ?_
        intro i
        rw [List.mem_append, addIds_mem]
        simp only [List.take_succ_cons, List.flatten_cons, List.map_append, List.mem_append]
        tauto

theorem Layered_complete (steps : List (String × String)) :
    ∀ (S : List (List (String × String))) (assigned : List String),
      Layered steps assigned S →
      ∀ s ∈ steps, s.1 ∉ assigned → ∃ layer ∈ S, s ∈ layer := by
  intro S
  induction S with
  | nil =>
    intro assigned hLay s hs hmem
    cases hLay with
    | done _ hall => exact absurd (hall s hs) hmem
  | cons layer S ih =>
    intro assigned hLay s hs hmem
    cases hLay with
    | step _ _ hne hS =>
      by_cases hcur : s ∈ layerCandidates steps assigned
      · exact ⟨layerCandidates steps assigned, List.mem_cons_self _ _, hcur⟩
      · by_cases hass : s.1 ∈ addIds assigned ((layerCandidates steps assigned).map (fun t => t.1))
        · exfalso
          rcases (addIds_mem _ _ s.1).mp hass with h | h
          · exact hmem h
          · obtain ⟨t, ht, hteq⟩ := List.mem_map.mp h
            have hm := (mem_layerCandidates steps assigned t).mp ht
            refine hcur ((mem_layerCandidates steps assigned s).mpr ⟨hs, hmem, ?_⟩)
            intro d hd
            rw [← hteq] at hd
            exact hm.2.2 d hd
        · obtain ⟨l2, hl2, hsl2⟩ := ih _ hS s hs hass
          exact ⟨l2, List.mem_cons_of_mem _ hl2, hsl2⟩

theorem build_ok_layered (steps : List (String × String)) (L : List (List (String × String)))
    (hok : build_execution_layers steps = .ok L) : Layered steps [] L := by
  unfold build_execution_layers at hok
  by_cases hse : steps.isEmpty
  · rw [if_pos hse] at hok
    injection hok with h
    subst h
    exact Layered.done [] (by intro s hs; rw [List.isEmpty_iff.mp hse] at hs; cases hs)
  · rw [if_neg hse] at hok
    obtain ⟨S, hLS, hLay⟩ := layersLoop_ok_spec steps steps.length [] [] L (by simp)
      List.nodup_nil (by simp) hok
    simp only [List.reverse_nil, List.nil_append] at hLS
    exact hLS ▸ hLay

/-! ## Claim C1 -/

/-- C1: on success, build_execution_layers assigns each step to the earliest
layer whose strictly earlier layers contain all the step's recorded
dependencies (reserved input names excluded by construction of stepDeps): a
step is in layer k exactly when all its dependencies are among the IDs of
layers before k and no earlier layer already satisfied them; and every step
is assigned to some layer. -/
theorem C1_topological_layering (steps : List (String × String))
    (L : List (List (String × String))) (hok : build_execution_layers steps = .ok L) :
    (∀ (k : Nat) (hk : k < L.length) (s : String × String),
      s ∈ L.get ⟨k, hk⟩ ↔
        s ∈ steps ∧ (∀ d ∈ stepDeps steps s.1, d ∈ layersIds L k) ∧
          ∀ j, j < k → ¬∀ d ∈ stepDeps steps s.1, d ∈ layersIds L j) ∧
    (∀ s ∈ steps, ∃ layer ∈ L, s ∈ layer) := by
  have hLay := build_ok_layered steps L hok
  have hchar : ∀ (k : Nat) (hk : k < L.length),
      L.get ⟨k, hk⟩ = layerCandidates steps (layersIds L k) := by
    intro k hk
    have := Layered_get steps L [] hLay k hk
    simpa [layersIds] using this
  constructor
  · intro k hk s
    constructor
    · intro hs
      rw [hchar k hk] at hs
      obtain ⟨h1, h2, h3⟩ := (mem_layerCandidates _ _ _).mp hs
      refine ⟨h1, h3, ?_⟩
      intro j hj hdepj
      by_cases hmem : s.1 ∈ layersIds L j
      · exact h2 (layersIds_mono L j k (by omega) _ hmem)
      · have hjlen : j < L.length := by omega
        have hsj : s ∈ L.get ⟨j, hjlen⟩ := by
          rw [hchar j hjlen]
          exact (mem_layerCandidates _ _ _).mpr ⟨h1, hmem, hdepj⟩
        have hs1 : s.1 ∈ layersIds L (j + 1) :=
          (mem_layersIds_iff L (j + 1) s.1).mpr ⟨j, hjlen, by omega, s, hsj, rfl⟩
        exact h2 (layersIds_mono L (j + 1) k (by omega) _ hs1)
    · rintro ⟨h1, h2, h3⟩
      rw [hchar k hk]
      refine (mem_layerCandidates _ _ _).mpr ⟨h1, ?_, h2⟩
      intro hmem
      obtain ⟨j, hj, hjk, t, ht, hteq⟩ := (mem_layersIds_iff L k s.1).mp hmem
      refine h3 j hjk ?_
      have htc : t ∈ layerCandidates steps (layersIds L j) := by
        rw [← hchar j hj]; exact ht
      have hdeps := ((mem_layerCandidates _ _ _).mp htc).2.2
      rw [hteq] at hdeps
      exact hdeps
  · intro s hs
    exact Layered_complete steps L [] hLay s hs (by simp)

/-- Witness for C1: the reference chain yields the three singleton layers in
dependency order, three mutually independent steps share one layer, and the
characterization applies to the chain instance. -/
theorem C1_topological_layering_witness :
    build_execution_layers [("A", "a"), ("B", "b \x7b(A)\x7d"), ("C", "c \x7b(B)\x7d")] =
      .ok [[("A", "a")], [("B", "b \x7b(A)\x7d")], [("C", "c \x7b(B)\x7d")]] ∧
    build_execution_layers [("A", "a"), ("B", "b"), ("C", "c")] =
      .ok [[("A", "a"), ("B", "b"), ("C", "c")]] ∧
    (∀ s ∈ [("A", "a"), ("B", "b \x7b(A)\x7d"), ("C", "c \x7b(B)\x7d")],
      ∃ layer ∈ [[("A", "a")], [("B", "b \x7b(A)\x7d")], [("C", "c \x7b(B)\x7d")]], s ∈ layer) := by
  have hchain :
      build_execution_layers [("A", "a"), ("B", "b \x7b(A)\x7d"), ("C", "c \x7b(B)\x7d")] =
        .ok [[("A", "a")], [("B", "b \x7b(A)\x7d")], [("C", "c \x7b(B)\x7d")]] := by
    simp +decide [build_execution_layers, layersLoop, layerCandidates, stepDeps,
      extract_dependencies, depScan, tryMatchDep, isDepCh, input_vars, addIds,
      List.takeWhile, List.dropWhile, List.filter, List.getLast?]
  refine ⟨hchain, ?_, (C1_topological_layering _ _ hchain).2⟩
  simp +decide [build_execution_layers, layersLoop, layerCandidates, stepDeps,
    extract_dependencies, depScan, tryMatchDep, isDepCh, input_vars, addIds,
    List.takeWhile, List.dropWhile, List.filter, List.getLast?]

/-! ## Claim C10 -/

theorem Layered_length (steps : List (String × String)) :
    ∀ (S : List (List (String × String))) (assigned : List String),
      Layered steps assigned S → assigned.Nodup →
      (∀ i ∈ assigned, ∃ s ∈ steps, s.1 = i) →
      S.length + assigned.length ≤ steps.length := by
  intro S
  induction S with
  | nil =>
    intro assigned hLay h1 h2
    have hsub : assigned ⊆ steps.map (fun t => t.1) := by
      intro x hx
      obtain ⟨t, ht, hteq⟩ := h2 x hx
      exact List.mem_map.mpr ⟨t, ht, hteq⟩
    have := nodup_subset_length _ _ h1 hsub
    simp only [List.length_map] at this
    simpa using this
  | cons layer S ih =>
    intro assigned hLay h1 h2
    cases hLay with
    | step _ _ hne hS =>
      have hgrow : assigned.length <
          (addIds assigned ((layerCandidates steps assigned).map (fun s => s.1))).length := by
        refine addIds_length_lt _ _ ?_
        rcases hc0 : layerCandidates steps assigned with _ | ⟨s0, rest0⟩
        · exact absurd hc0 hne
        · refine ⟨s0.1, by simp [hc0], ?_⟩
          have hs0 : s0 ∈ layerCandidates steps assigned := by
            rw [hc0]; exact List.mem_cons_self _ _
          have := (mem_layerCandidates steps assigned s0).mp hs0
          simpa using this.2.1
      have hnd2 : (addIds assigned ((layerCandidates steps assigned).map (fun s => s.1))).Nodup :=
        addIds_nodup _ _ h1
      have hsub2 : ∀ i ∈ addIds assigned ((layerCandidates steps assigned).map (fun s => s.1)),
          ∃ s ∈ steps, s.1 = i := by
        intro i hi
        rcases (addIds_mem _ _ i).mp hi with hi | hi
        · exact h2 i hi
        · obtain ⟨t, ht, hteq⟩ := List.mem_map.mp hi
          exact ⟨t, ((mem_layerCandidates steps assigned t).mp ht).1, hteq⟩
      have := ih _ hS hnd2 hsub2
      simp only [List.length_cons]
      omega

theorem Layered_layers_ne (steps : List (String × String)) :
    ∀ (S : List (List (String × String))) (assigned : List String),
      Layered steps assigned S → ∀ layer ∈ S, layer ≠ [] := by
  intro S
  induction S with
  | nil => intro assigned _ layer hl; cases hl
  | cons l0 S ih =>
    intro assigned hLay layer hl
    cases hLay with
    | step _ _ hne hS =>
      rcases List.mem_cons.mp hl with rfl | hl
      · exact hne
      · exact ih _ hS layer hl

/-- C10: the scanning loop of build_execution_layers makes progress: whenever
a scan yields a non-empty candidate layer, the assigned set strictly grows;
consequently the function is total by the decreasing measure, and on success
it returns at most one layer per step, each layer non-empty. -/
theorem C10_layers_terminate :
    (∀ (steps : List (String × String)) (assigned : List String),
      layerCandidates steps assigned ≠ [] →
      assigned.length <
        (addIds assigned ((layerCandidates steps assigned).map (fun s => s.1))).length) ∧
    (∀ (steps : List (String × String)) (L : List (List (String × String))),
      build_execution_layers steps = .ok L →
      L.length ≤ steps.length ∧ ∀ layer ∈ L, layer ≠ []) := by
  constructor
  · intro steps assigned hne
    refine addIds_length_lt _ _ ?_
    rcases hc0 : layerCandidates steps assigned with _ | ⟨s0, rest0⟩
    · exact absurd hc0 hne
    · refine ⟨s0.1, by simp [hc0], ?_⟩
      have hs0 : s0 ∈ layerCandidates steps assigned := by
        rw [hc0]; exact List.mem_cons_self _ _
      have := (mem_layerCandidates steps assigned s0).mp hs0
      simpa using this.2.1
  · intro steps L hok
    have hLay := build_ok_layered steps L hok
    constructor
    · have := Layered_length steps L [] hLay List.nodup_nil (by simp)
      simpa using this
    · exact Layered_layers_ne steps L [] hLay

/-- Witness for C10: the progress bound and the success-side bounds at the
concrete chain input. -/
theorem C10_layers_terminate_witness :
    ([] : List String).length <
      (addIds [] ((layerCandidates [("A", "a"), ("B", "b \x7b(A)\x7d")] []).map
        (fun s => s.1))).length ∧
    ([[("A", "a")], [("B", "b \x7b(A)\x7d")]] : List (List (String × String))).length ≤
      ([("A", "a"), ("B", "b \x7b(A)\x7d")] : List (String × String)).length ∧
    ∀ layer ∈ [[("A", "a")], [("B", "b \x7b(A)\x7d")]], layer ≠ ([] : List (String × String)) := by
  have hne : layerCandidates [("A", "a"), ("B", "b \x7b(A)\x7d")] [] ≠ [] := by
    simp +decide [layerCandidates, stepDeps, extract_dependencies, depScan, tryMatchDep,
      isDepCh, input_vars, List.takeWhile, List.dropWhile, List.filter, List.getLast?]
  have hok : build_execution_layers [("A", "a"), ("B", "b \x7b(A)\x7d")] =
      .ok [[("A", "a")], [("B", "b \x7b(A)\x7d")]] := by
    simp +decide [build_execution_layers, layersLoop, layerCandidates, stepDeps,
      extract_dependencies, depScan, tryMatchDep, isDepCh, input_vars, addIds,
      List.takeWhile, List.dropWhile, List.filter, List.getLast?]
  obtain ⟨h1, h2⟩ := C10_layers_terminate
  obtain ⟨h3, h4⟩ := h2 _ _ hok
  exact ⟨h1 _ _ hne, h3, h4⟩

/-! ## The layered execution engine -/

theorem anotStep_idx (collab : String → Except String String)
    (subst : String → List (String × String) → String)
    (cache : List (String × String)) (s : String × String) :
    (anotStep collab subst cache s).idx = s.1 := by
  unfold anotStep
  cases collab (subst s.2 cache) <;> rfl

theorem lookup_cacheSet_self (c : List (String × String)) (k v : String) :
    lookupStr (cacheSet c k v) k = some v := by
  simp [cacheSet, lookupStr]

theorem lookup_cacheSet_other (c : List (String × String)) (k v k' : String) (h : k' ≠ k) :
    lookupStr (cacheSet c k v) k' = lookupStr c k' := by
  show (if k = k' then some v else lookupStr c k') = lookupStr c k'
  rw [if_neg (fun hc => h hc.symm)]

theorem lookup_writeLayer_not_mem (rs : List StepOut) :
    ∀ (cache : List (String × String)) (i : String), i ∉ rs.map (fun x => x.idx) →
      lookupStr (rs.foldl (fun c r => cacheSet c r.idx r.out) cache) i = lookupStr cache i := by
  induction rs with
  | nil => intro cache i _; rfl
  | cons r0 rest ih =>
    intro cache i hi
    simp only [List.map_cons, List.mem_cons] at hi
    push_neg at hi
    rw [List.foldl_cons, ih _ i hi.2, lookup_cacheSet_other _ _ _ _ hi.1]

theorem lookup_writeLayer_mem (rs : List StepOut) :
    ∀ (cache : List (String × String)) (r : StepOut),
      (rs.map (fun x => x.idx)).Nodup → r ∈ rs →
      lookupStr (rs.foldl (fun c r => cacheSet c r.idx r.out) cache) r.idx = some r.out := by
  induction rs with
  | nil => intro cache r _ hr; cases hr
  | cons r0 rest ih =>
    intro cache r hnd hr
    simp only [List.map_cons, List.nodup_cons] at hnd
    rcases List.mem_cons.mp hr with rfl | hr
    · rw [List.foldl_cons, lookup_writeLayer_not_mem rest _ r.idx hnd.1, lookup_cacheSet_self]
    · rw [List.foldl_cons]
      exact ih _ r hnd.2 hr

theorem run_cache_append_single (collab : String → Except String String)
    (subst : String → List (String × String) → String) :
    ∀ (a : List (List (String × String))) (cache : List (String × String)) (final : String)
      (layer : List (String × String)),
      (run_layers collab subst cache final (a ++ [layer])).2.1 =
        ((layer.map (anotStep collab subst (run_layers collab subst cache final a).2.1)).foldl
          (fun c r => cacheSet c r.idx r.out) (run_layers collab subst cache final a).2.1) := by
  intro a
  induction a with
  | nil => intro cache final layer; rfl
  | cons l0 a ih =>
    intro cache final layer
    show (run_layers collab subst _ _ (a ++ [layer])).2.1 = _
    rw [ih]
    rfl

theorem cacheBefore_succ (collab : String → Except String String)
    (subst : String → List (String × String) → String)
    (layers : List (List (String × String))) (n : Nat) (hn : n < layers.length) :
    cacheBefore collab subst layers (n + 1) =
      ((layers.get ⟨n, hn⟩).map (anotStep collab subst (cacheBefore collab subst layers n))).foldl
        (fun c r => cacheSet c r.idx r.out) (cacheBefore collab subst layers n) := by
  unfold cacheBefore
  have htake : layers.take (n + 1) = layers.take n ++ [layers.get ⟨n, hn⟩] := by
    rw [List.take_succ]
    congr 1
    rw [List.getElem?_eq_getElem hn]
    rfl
  rw [htake, run_cache_append_single]

theorem writeLayer_ids (collab : String → Except String String)
    (subst : String → List (String × String) → String)
    (cache : List (String × String)) (layer : List (String × String)) :
    (layer.map (anotStep collab subst cache)).map (fun x => x.idx) =
      layer.map (fun s => s.1) := by
  rw [List.map_map]
  exact List.map_congr_left (fun s _ => anotStep_idx collab subst cache s)

theorem cacheBefore_lookup (collab : String → Except String String)
    (subst : String → List (String × String) → String)
    (layers : List (List (String × String)))
    (hdisj : ∀ (m n : Nat) (hm : m < layers.length) (hn : n < layers.length), m ≠ n →
      ∀ t ∈ layers.get ⟨m, hm⟩, ∀ u ∈ layers.get ⟨n, hn⟩, t.1 ≠ u.1)
    (hlay : ∀ (m : Nat) (hm : m < layers.length),
      ((layers.get ⟨m, hm⟩).map (fun s => s.1)).Nodup) :
    ∀ (n : Nat) (hn : n ≤ layers.length) (m : Nat) (hm : m < n)
      (t : String × String), t ∈ layers.get ⟨m, Nat.lt_of_lt_of_le hm hn⟩ →
      lookupStr (cacheBefore collab subst layers n) t.1 =
        some (anotStep collab subst (cacheBefore collab subst layers m) t).out := by
  intro n
  induction n with
  | zero => intro _ m hm; omega
  | succ n ihn =>
    intro hn1 m hm t ht
    have hnlen : n < layers.length := by omega
    have hmlen : m < layers.length := by omega
    rw [cacheBefore_succ collab subst layers n hnlen]
    by_cases hmn : m = n
    · subst hmn
      have hmem : anotStep collab subst (cacheBefore collab subst layers m) t ∈
          (layers.get ⟨m, hnlen⟩).map (anotStep collab subst (cacheBefore collab subst layers m)) :=
        List.mem_map.mpr ⟨t, ht, rfl⟩
      have hres := lookup_writeLayer_mem
        ((layers.get ⟨m, hnlen⟩).map (anotStep collab subst (cacheBefore collab subst layers m)))
        (cacheBefore collab subst layers m)
        (anotStep collab subst (cacheBefore collab subst layers m) t)
        (by rw [writeLayer_ids]; exact hlay m hnlen) hmem
      rw [anotStep_idx] at hres
      exact hres
    · have hmn2 : m < n := by omega
      have hnot : t.1 ∉ ((layers.get ⟨n, hnlen⟩).map
          (anotStep collab subst (cacheBefore collab subst layers n))).map (fun x => x.idx) := by
        rw [writeLayer_ids]
        intro hc
        obtain ⟨u, hu, hueq⟩ := List.mem_map.mp hc
        exact hdisj m n hmlen hnlen hmn t ht u hu hueq.symm
      rw [lookup_writeLayer_not_mem _ _ _ hnot]
      exact ihn (by omega) m hmn2 t ht

/-! ## Claim C9 -/

/-- C9: layers execute in order against snapshots: for every step t of a
layer m, once the first n layers have run (m strictly before n), the cache
visible to layer n holds exactly the output t produced from the cache
snapshot taken when layer m started; so all of a layer's writes land before
any later layer substitutes. -/
theorem C9_layer_snapshot_ordering (collab : String → Except String String)
    (subst : String → List (String × String) → String)
    (layers : List (List (String × String)))
    (hdisj : ∀ (m n : Nat) (hm : m < layers.length) (hn : n < layers.length), m ≠ n →
      ∀ t ∈ layers.get ⟨m, hm⟩, ∀ u ∈ layers.get ⟨n, hn⟩, t.1 ≠ u.1)
    (hlay : ∀ (m : Nat) (hm : m < layers.length),
      ((layers.get ⟨m, hm⟩).map (fun s => s.1)).Nodup)
    (n : Nat) (hn : n ≤ layers.length) (m : Nat) (hm : m < n)
    (t : String × String) (ht : t ∈ layers.get ⟨m, Nat.lt_of_lt_of_le hm hn⟩) :
    lookupStr (cacheBefore collab subst layers n) t.1 =
      some (anotStep collab subst (cacheBefore collab subst layers m) t).out :=
  cacheBefore_lookup collab subst layers hdisj hlay n hn m hm t ht

/-- Witness for C9: a two-layer run where the second layer sees the first
layer's recorded output. -/
theorem C9_layer_snapshot_ordering_witness :
    lookupStr (cacheBefore (fun p => .ok p) (fun ins _ => ins)
        [[("a", "ia")], [("b", "ib")]] 1) "a" =
      some (anotStep (fun p => .ok p) (fun ins _ => ins)
        (cacheBefore (fun p => .ok p) (fun ins _ => ins) [[("a", "ia")], [("b", "ib")]] 0)
        ("a", "ia")).out := by
  have hdisj : ∀ (m n : Nat) (hm : m < ([[("a", "ia")], [("b", "ib")]] :
      List (List (String × String))).length)
      (hn : n < ([[("a", "ia")], [("b", "ib")]] : List (List (String × String))).length),
      m ≠ n → ∀ t ∈ ([[("a", "ia")], [("b", "ib")]] :
        List (List (String × String))).get ⟨m, hm⟩,
        ∀ u ∈ ([[("a", "ia")], [("b", "ib")]] : List (List (String × String))).get ⟨n, hn⟩,
          t.1 ≠ u.1 := by
    intro m n hm hn hmn t htm u hun
    simp only [List.length_cons, List.length_nil] at hm hn
    interval_cases m <;> interval_cases n <;> simp_all
  have hlay : ∀ (m : Nat) (hm : m < ([[("a", "ia")], [("b", "ib")]] :
      List (List (String × String))).length),
      ((([[("a", "ia")], [("b", "ib")]] : List (List (String × String))).get ⟨m, hm⟩).map
        (fun s => s.1)).Nodup := by
    intro m hm
    simp only [List.length_cons, List.length_nil] at hm
    interval_cases m <;> simp
  exact C9_layer_snapshot_ordering (fun p => .ok p) (fun ins _ => ins)
    [[("a", "ia")], [("b", "ib")]] hdisj hlay 1 (by decide) 0 (by omega) ("a", "ia") (by simp)

theorem run_errors_mem_gen (collab : String → Except String String)
    (subst : String → List (String × String) → String) :
    ∀ (ls : List (List (String × String))) (m : Nat) (hm : m < ls.length)
      (cache : List (String × String)) (final : String)
      (t : String × String), t ∈ ls.get ⟨m, hm⟩ → ∀ (e : String),
      (anotStep collab subst ((run_layers collab subst cache final (ls.take m)).2.1) t).err
        = some e →
      (t.1, e) ∈ (run_layers collab subst cache final ls).2.2 := by
  intro ls
  induction ls with
  | nil => intro m hm; simp at hm
  | cons l0 ls ih =>
    intro m hm cache final t ht e herr
    cases m with
    | zero =>
      refine List.mem_append.mpr (Or.inl ?_)
      refine List.mem_filterMap.mpr ⟨anotStep collab subst cache t, ?_, ?_⟩
      · exact List.mem_map.mpr ⟨t, ht, rfl⟩
      · have herr0 : (anotStep collab subst cache t).err = some e := herr
        rw [herr0, anotStep_idx]
        rfl
    | succ m =>
      have hm2 : m < ls.length := by simpa using hm
      refine List.mem_append.mpr (Or.inr ?_)
      exact ih m hm2 _ _ t ht e herr

theorem lookupCache_setV_self (c : List (String × Val)) (k : String) (v : Val) :
    lookupCache (cacheSetV c k v) k = some v := by
  simp [cacheSetV, lookupCache]

theorem lookupCache_setV_other (c : List (String × Val)) (k : String) (v : Val) (i : String)
    (h : i ≠ k) : lookupCache (cacheSetV c k v) i = lookupCache c i := by
  show (if k = i then some v else lookupCache c i) = lookupCache c i
  rw [if_neg (fun hc => h hc.symm)]

theorem knot_cache_not_mem (lit : String → Option Val) (collab : String → Except String String)
    (q c : Val) :
    ∀ (steps : List (String × String)) (final : String) (cache : List (String × Val))
      (i : String), i ∉ steps.map (fun p => p.1) →
      lookupCache ((knot_execute lit collab q c final cache steps).2.1) i =
        lookupCache cache i := by
  intro steps
  induction steps with
  | nil => intro final cache i _; rfl
  | cons p rest ih =>
    rcases p with ⟨idx, instr⟩
    intro final cache i hi
    simp only [List.map_cons, List.mem_cons] at hi
    push_neg at hi
    show lookupCache ((knot_execute lit collab q c _ (cacheSetV cache idx _) rest).2.1) i = _
    rw [ih _ _ i hi.2, lookupCache_setV_other _ _ _ _ hi.1]

theorem knot_trace_len (lit : String → Option Val) (collab : String → Except String String)
    (q c : Val) :
    ∀ (steps : List (String × String)) (final : String) (cache : List (String × Val)),
      (knot_execute lit collab q c final cache steps).2.2.length = steps.length := by
  intro steps
  induction steps with
  | nil => intro final cache; rfl
  | cons p rest ih =>
    rcases p with ⟨idx, instr⟩
    intro final cache
    show ((idx, _) :: (knot_execute lit collab q c _ _ rest).2.2).length = _
    simp [ih]

theorem knot_execute_append (lit : String → Option Val) (collab : String → Except String String)
    (q c : Val) :
    ∀ (a b : List (String × String)) (final : String) (cache : List (String × Val)),
      knot_execute lit collab q c final cache (a ++ b) =
        ((knot_execute lit collab q c (knot_execute lit collab q c final cache a).1
            (knot_execute lit collab q c final cache a).2.1 b).1,
         (knot_execute lit collab q c (knot_execute lit collab q c final cache a).1
            (knot_execute lit collab q c final cache a).2.1 b).2.1,
         (knot_execute lit collab q c final cache a).2.2 ++
           (knot_execute lit collab q c (knot_execute lit collab q c final cache a).1
              (knot_execute lit collab q c final cache a).2.1 b).2.2) := by
  intro a
  induction a with
  | nil => intro b final cache; rfl
  | cons p a ih =>
    rcases p with ⟨idx, instr⟩
    intro b final cache
    show (_, _, (idx, _) :: _) = _
    simp only [List.append_eq]
    rw [ih]
    rfl

/-! ## Claim C5 -/

/-- C5: a collaborator exception on one step is absorbed: in the ranked-list
engine the step's cache entry becomes the sentinel NO, the failure is
recorded in the error list, and every step of every layer still gets its
output recorded in the cache; in the ternary knot engine the failing step's
output is the sentinel 0, cached as the parsed literal zero which renders
back as the text 0, and every step of the script is still executed. -/
theorem C5_step_failure_isolation :
    (∀ (collab : String → Except String String)
      (subst : String → List (String × String) → String)
      (layers : List (List (String × String)))
      (hdisj : ∀ (m n : Nat) (hm : m < layers.length) (hn : n < layers.length), m ≠ n →
        ∀ t ∈ layers.get ⟨m, hm⟩, ∀ u ∈ layers.get ⟨n, hn⟩, t.1 ≠ u.1)
      (hlay : ∀ (m : Nat) (hm : m < layers.length),
        ((layers.get ⟨m, hm⟩).map (fun s => s.1)).Nodup)
      (m : Nat) (hm : m < layers.length) (t : String × String)
      (ht : t ∈ layers.get ⟨m, hm⟩) (e : String)
      (hfail : collab (subst t.2 (cacheBefore collab subst layers m)) = .error e),
      lookupStr (cacheBefore collab subst layers layers.length) t.1 = some "NO" ∧
      (t.1, e) ∈ (run_layers collab subst [] "" layers).2.2 ∧
      (∀ (m2 : Nat) (hm2 : m2 < layers.length), ∀ u ∈ layers.get ⟨m2, hm2⟩,
        lookupStr (cacheBefore collab subst layers layers.length) u.1 =
          some (anotStep collab subst (cacheBefore collab subst layers m2) u).out)) ∧
    (∀ (lit : String → Option Val) (collab : String → Except String String) (q c : Val)
      (pre : List (String × String)) (s : String × String) (post : List (String × String))
      (e : String)
      (hlit : lit "0" = some (Val.vint 0))
      (hpost : s.1 ∉ post.map (fun p => p.1))
      (hfail : collab (substitute_variables lit s.2 q c
        (knot_execute lit collab q c "" [] pre).2.1) = .error e),
      (s.1, "0") ∈ (knot_execute lit collab q c "" [] (pre ++ s :: post)).2.2 ∧
      lookupCache (knot_execute lit collab q c "" [] (pre ++ s :: post)).2.1 s.1 =
        some (Val.vint 0) ∧
      renderVal (Val.vint 0) = "0" ∧
      (knot_execute lit collab q c "" [] (pre ++ s :: post)).2.2.length =
        (pre ++ s :: post).length) := by
  constructor
  · intro collab subst layers hdisj hlay m hm t ht e hfail
    have hstep : anotStep collab subst (cacheBefore collab subst layers m) t
        = ⟨t.1, "NO", some e⟩ := by
      unfold anotStep
      rw [hfail]
    refine ⟨?_, ?_, ?_⟩
    · have := cacheBefore_lookup collab subst layers hdisj hlay layers.length (Nat.le_refl _)
        m hm t ht
      rw [hstep] at this
      exact this
    · refine run_errors_mem_gen collab subst layers m hm [] "" t ht e ?_
      have hcb : (run_layers collab subst [] "" (layers.take m)).2.1
          = cacheBefore collab subst layers m := rfl
      rw [hcb, hstep]
    · intro m2 hm2 u hu
      exact cacheBefore_lookup collab subst layers hdisj hlay layers.length (Nat.le_refl _)
        m2 hm2 u hu
  · intro lit collab q c pre s post e hlit hpost hfail
    obtain ⟨sidx, sinstr⟩ := s
    have happ := knot_execute_append lit collab q c pre ((sidx, sinstr) :: post) ""
      ([] : List (String × Val))
    have hout : (match collab (substitute_variables lit sinstr q c
        (knot_execute lit collab q c "" [] pre).2.1) with
        | Except.ok o => o | Except.error _ => "0") = "0" := by
      rw [hfail]
    have hlitOr : litOr lit "0" = Val.vint 0 := by
      unfold litOr
      rw [hlit]
    have hstep : knot_execute lit collab q c (knot_execute lit collab q c "" [] pre).1
        (knot_execute lit collab q c "" [] pre).2.1 ((sidx, sinstr) :: post)
        = ((knot_execute lit collab q c "0"
            (cacheSetV (knot_execute lit collab q c "" [] pre).2.1 sidx (Val.vint 0)) post).1,
           (knot_execute lit collab q c "0"
            (cacheSetV (knot_execute lit collab q c "" [] pre).2.1 sidx (Val.vint 0)) post).2.1,
           (sidx, "0") :: (knot_execute lit collab q c "0"
            (cacheSetV (knot_execute lit collab q c "" [] pre).2.1 sidx (Val.vint 0)) post).2.2) := by
      show ((knot_execute lit collab q c _ (cacheSetV _ sidx (litOr lit _)) post).1, _, _) = _
      rw [hout, hlitOr]
    rw [hstep] at happ
    refine ⟨?_, ?_, rfl, ?_⟩
    · rw [happ]
      simp
    · rw [happ]
      show lookupCache (knot_execute lit collab q c "0"
        (cacheSetV (knot_execute lit collab q c "" [] pre).2.1 sidx (Val.vint 0)) post).2.1
          sidx = some (Val.vint 0)
      rw [knot_cache_not_mem lit collab q c post _ _ sidx hpost, lookupCache_setV_self]
    · rw [happ]
      show ((knot_execute lit collab q c "" [] pre).2.2 ++
        (sidx, "0") :: (knot_execute lit collab q c "0" _ post).2.2).length = _
      rw [List.length_append]
      simp only [List.length_cons]
      rw [knot_trace_len, knot_trace_len]
      simp

/-- Witness for C5: one failing step among siblings in both engines. -/
theorem C5_step_failure_isolation_witness :
    (lookupStr (cacheBefore (fun p => if p = "boom" then Except.error "X" else Except.ok p)
        (fun ins _ => ins) [[("a", "boom"), ("b", "ok")], [("c", "ok2")]]
        ([[("a", "boom"), ("b", "ok")], [("c", "ok2")]] :
          List (List (String × String))).length) "a" = some "NO" ∧
      ("a", "X") ∈ (run_layers (fun p => if p = "boom" then Except.error "X" else Except.ok p)
        (fun ins _ => ins) [] "" [[("a", "boom"), ("b", "ok")], [("c", "ok2")]]).2.2) ∧
    ((("s1", "0") ∈ (knot_execute (fun t => if t = "0" then some (Val.vint 0) else none)
        (fun p => if p = "boom" then Except.error "X" else Except.ok p)
        (Val.vstr "") (Val.vstr "") "" [] ([] ++ ("s1", "boom") :: [("s2", "hi")])).2.2) ∧
      lookupCache (knot_execute (fun t => if t = "0" then some (Val.vint 0) else none)
        (fun p => if p = "boom" then Except.error "X" else Except.ok p)
        (Val.vstr "") (Val.vstr "") "" [] ([] ++ ("s1", "boom") :: [("s2", "hi")])).2.1 "s1" =
        some (Val.vint 0)) := by
  have hdisj : ∀ (m n : Nat)
      (hm : m < ([[("a", "boom"), ("b", "ok")], [("c", "ok2")]] :
        List (List (String × String))).length)
      (hn : n < ([[("a", "boom"), ("b", "ok")], [("c", "ok2")]] :
        List (List (String × String))).length), m ≠ n →
      ∀ t ∈ ([[("a", "boom"), ("b", "ok")], [("c", "ok2")]] :
        List (List (String × String))).get ⟨m, hm⟩,
        ∀ u ∈ ([[("a", "boom"), ("b", "ok")], [("c", "ok2")]] :
          List (List (String × String))).get ⟨n, hn⟩, t.1 ≠ u.1 := by
    intro m n hm hn hmn t htm u hun
    simp only [List.length_cons, List.length_nil] at hm hn
    interval_cases m <;> interval_cases n <;> simp_all <;> rcases htm with rfl | rfl <;>
      rcases hun with rfl | rfl <;> simp_all
  have hlay : ∀ (m : Nat) (hm : m < ([[("a", "boom"), ("b", "ok")], [("c", "ok2")]] :
      List (List (String × String))).length),
      ((([[("a", "boom"), ("b", "ok")], [("c", "ok2")]] :
        List (List (String × String))).get ⟨m, hm⟩).map (fun s => s.1)).Nodup := by
    intro m hm
    simp only [List.length_cons, List.length_nil] at hm
    interval_cases m <;> simp
  have hfailA : (fun p => if p = "boom" then Except.error "X" else Except.ok p)
      ((fun (ins : String) (_ : List (String × String)) => ins) "boom"
        (cacheBefore (fun p => if p = "boom" then Except.error "X" else Except.ok p)
          (fun ins _ => ins) [[("a", "boom"), ("b", "ok")], [("c", "ok2")]] 0)) =
      Except.error "X" := by simp
  obtain ⟨hA, hB⟩ := C5_step_failure_isolation
  have hres := hA (fun p => if p = "boom" then Except.error "X" else Except.ok p)
    (fun ins _ => ins) [[("a", "boom"), ("b", "ok")], [("c", "ok2")]] hdisj hlay
    0 (by decide) ("a", "boom") (by simp) "X" hfailA
  have hsub : substitute_variables (fun t => if t = "0" then some (Val.vint 0) else none)
      "boom" (Val.vstr "") (Val.vstr "")
      (knot_execute (fun t => if t = "0" then some (Val.vint 0) else none)
        (fun p => if p = "boom" then Except.error "X" else Except.ok p)
        (Val.vstr "") (Val.vstr "") "" [] []).2.1 = "boom" := by
    show substitute_variables _ "boom" (Val.vstr "") (Val.vstr "") [] = "boom"
    simp +decide [substitute_variables, scanTemplate, tryMatchRef, parseAccessors, scanAccBody,
      isWordCh, List.takeWhile, List.dropWhile, renderSegs]
  have hres2 := hB (fun t => if t = "0" then some (Val.vint 0) else none)
    (fun p => if p = "boom" then Except.error "X" else Except.ok p)
    (Val.vstr "") (Val.vstr "") [] ("s1", "boom") [("s2", "hi")] "X"
    (by simp) (by decide) (by rw [hsub]; simp)
  exact ⟨⟨hres.1, hres.2.1⟩, ⟨hres2.1, hres2.2.1⟩⟩

/-! ## Script-parsing round trip -/

theorem splitOnNl_no_nl : ∀ (l : List Char), '\n' ∉ l → splitOnNl l = [l] := by
  intro l
  induction l with
  | nil => intro _; rfl
  | cons c cs ih =>
    intro h
    simp only [List.mem_cons] at h
    push_neg at h
    show (if c = '\n' then [] :: splitOnNl cs else
      match splitOnNl cs with
      | h :: t => (c :: h) :: t
      | [] => [[c]]) = [c :: cs]
    rw [if_neg (fun hc => h.1 hc.symm), ih h.2]

theorem splitOnNl_append_nl : ∀ (l rest : List Char), '\n' ∉ l →
    splitOnNl (l ++ '\n' :: rest) = l :: splitOnNl rest := by
  intro l
  induction l with
  | nil => intro rest _; rfl
  | cons c cs ih =>
    intro rest h
    simp only [List.mem_cons] at h
    push_neg at h
    show (if c = '\n' then [] :: splitOnNl (cs ++ '\n' :: rest) else
      match splitOnNl (cs ++ '\n' :: rest) with
      | h :: t => (c :: h) :: t
      | [] => [[c]]) = (c :: cs) :: splitOnNl rest
    rw [if_neg (fun hc => h.1 hc.symm), ih rest h.2]

theorem takeWhile_append_all (p : Char → Bool) :
    ∀ (l : List Char) (c : Char) (rs : List Char), (∀ x ∈ l, p x = true) → p c = false →
      (l ++ c :: rs).takeWhile p = l ∧ (l ++ c :: rs).dropWhile p = c :: rs := by
  intro l
  induction l with
  | nil =>
    intro c rs _ hc
    constructor
    · show (c :: rs).takeWhile p = []
      simp [List.takeWhile_cons, hc]
    · show (c :: rs).dropWhile p = c :: rs
      simp [List.dropWhile_cons, hc]
  | cons a l ih =>
    intro c rs hall hc
    have ha : p a = true := hall a (List.mem_cons_self _ _)
    have hrest := ih c rs (fun x hx => hall x (List.mem_cons_of_mem _ hx)) hc
    constructor
    · show ((a :: (l ++ c :: rs)).takeWhile p) = a :: l
      rw [List.takeWhile_cons, if_pos ha, hrest.1]
    · show ((a :: (l ++ c :: rs)).dropWhile p) = c :: rs
      rw [List.dropWhile_cons, if_pos ha, hrest.2]

theorem matchIdxAt_render (id0 : List Char) (tail : List Char)
    (hne : id0 ≠ []) (hdig : ∀ c ∈ id0, c.isDigit = true) :
    matchIdxAt ('(' :: (id0 ++ ')' :: '=' :: 'L' :: 'L' :: 'M' :: tail)) =
      some (String.mk id0) := by
  obtain ⟨d, ds, rfl⟩ : ∃ d ds, id0 = d :: ds := by
    cases id0 with
    | nil => exact absurd rfl hne
    | cons d ds => exact ⟨d, ds, rfl⟩
  have htd := takeWhile_append_all Char.isDigit (d :: ds)
    ')' ('=' :: 'L' :: 'L' :: 'M' :: tail) hdig (by decide)
  simp only [matchIdxAt]
  rw [htd.1, htd.2]
  show (match ('=' :: 'L' :: 'L' :: 'M' :: tail).dropWhile isPySpace with
    | '=' :: rest3 =>
      (match rest3.dropWhile isPySpace with
       | 'L' :: 'L' :: 'M' :: _ => some (String.mk (d :: ds))
       | _ => none)
    | _ => none) = some (String.mk (d :: ds))
  rw [List.dropWhile_cons, if_neg (by decide)]
  show (match ('L' :: 'L' :: 'M' :: tail).dropWhile isPySpace with
    | 'L' :: 'L' :: 'M' :: _ => some (String.mk (d :: ds))
    | _ => none) = some (String.mk (d :: ds))
  rw [List.dropWhile_cons, if_neg (by decide)]
  rfl

theorem findIdx_cons_some (c : Char) (cs : List Char) (i : String)
    (h : matchIdxAt (c :: cs) = some i) : findIdx (c :: cs) = some i := by
  show (match matchIdxAt (c :: cs) with
    | some i => some i
    | none => findIdx cs) = some i
  rw [h]

theorem matchInstrAt_not_L (c : Char) (cs : List Char) (h : c ≠ 'L') :
    matchInstrAt (c :: cs) = none := by
  unfold matchInstrAt
  split
  · rename_i heq
    injection heq with h1 _
    exact absurd h1 h
  · rfl

theorem findInstr_skip : ∀ (pref rest : List Char), (∀ c ∈ pref, c ≠ 'L') →
    rest ≠ [] → findInstr (pref ++ rest) = findInstr rest := by
  intro pref
  induction pref with
  | nil => intro rest _ _; rfl
  | cons c cs ih =>
    intro rest hall hne
    have hc : c ≠ 'L' := hall c (List.mem_cons_self _ _)
    show (match matchInstrAt (c :: (cs ++ rest)) with
      | some t => some t
      | none => findInstr (cs ++ rest)) = findInstr rest
    rw [matchInstrAt_not_L c _ hc]
    exact ih rest (fun x hx => hall x (List.mem_cons_of_mem _ hx)) hne

theorem lazyContent_append_close (q : Char) (hq : isQuoteCh q = true) :
    ∀ (instr : List Char), instr ≠ [] → noEarlyClose instr = true →
      lazyContent (instr ++ [q, ')']) = some instr := by
  have hqne : q ≠ ')' := by
    intro hh
    rw [hh] at hq
    exact absurd hq (by decide)
  intro instr
  induction instr with
  | nil => intro h _; exact absurd rfl h
  | cons a l ih =>
    intro _ hnec
    cases l with
    | nil =>
      show (if closesHere [q, ')'] then some [a] else
        match lazyContent [q, ')'] with
        | some t => some (a :: t)
        | none => none) = some [a]
      rw [if_pos (by show isQuoteCh q = true; exact hq)]
    | cons b t =>
      have hnec2 : noEarlyClose (b :: t) = true := by
        unfold noEarlyClose at hnec
        rw [Bool.and_eq_true] at hnec
        exact hnec.2
      have hclose : closesHere ((b :: t) ++ [q, ')']) = false := by
        cases t with
        | nil =>
          show closesHere [b, q, ')'] = false
          unfold closesHere
          split
          · rename_i heq
            injection heq with _ h2
            injection h2 with h2 _
            exact absurd h2 hqne
          · rfl
        | cons r0 rs =>
          have hpair2 : (!(isQuoteCh b && r0 == ')')) = true := by
            unfold noEarlyClose at hnec2
            rw [Bool.and_eq_true] at hnec2
            exact hnec2.1
          show closesHere (b :: r0 :: (rs ++ [q, ')'])) = false
          unfold closesHere
          split
          · rename_i heq
            injection heq with h1 h2
            injection h2 with h2 _
            subst h1
            rw [h2] at hpair2
            simp only [Bool.not_eq_true', Bool.and_eq_false_iff] at hpair2
            rcases hpair2 with hb | hcon
            · exact hb
            · exact absurd hcon (by decide)
          · rfl
      show (if closesHere ((b :: t) ++ [q, ')']) then some [a] else
        match lazyContent ((b :: t) ++ [q, ')']) with
        | some t2 => some (a :: t2)
        | none => none) = some (a :: b :: t)
      rw [if_neg (by rw [hclose]; exact fun h => nomatch h)]
      rw [ih (by simp) hnec2]

theorem renderLine_data (p : String × String) :
    (renderLine p).data =
      '(' :: (p.1.data ++ ')' :: '=' :: 'L' :: 'L' :: 'M' :: '(' :: '"' ::
        (p.2.data ++ ['"', ')'])) := by
  simp [renderLine]

theorem renderLine_no_nl (p : String × String) (h : WellFormedPair p) :
    '\n' ∉ (renderLine p).data := by
  rw [renderLine_data]
  intro hmem
  simp +decide [List.mem_cons, List.mem_append] at hmem
  rcases hmem with hid | hin
  · exact absurd (h.2.1 '\n' hid) (by decide)
  · exact (h.2.2.2.1 '\n' hin) rfl

theorem findInstr_cons_some (c : Char) (cs : List Char) (t : List Char)
    (h : matchInstrAt (c :: cs) = some t) : findInstr (c :: cs) = some t := by
  show (match matchInstrAt (c :: cs) with
    | some t => some t
    | none => findInstr cs) = some t
  rw [h]

theorem matchInstrAt_render (instr : List Char) (hne : instr ≠ [])
    (hnec : noEarlyClose instr = true) :
    matchInstrAt ('L' :: 'L' :: 'M' :: '(' :: '"' :: (instr ++ ['"', ')'])) =
      some instr := by
  show (if isQuoteCh '"' then lazyContent (instr ++ ['"', ')']) else none) = some instr
  rw [if_pos (by decide)]
  exact lazyContent_append_close '"' (by decide) instr hne hnec

theorem containsChars_of_suffix (pat : String) (u v : List Char)
    (h : pat.data.isPrefixOf v = true) : containsChars pat (u ++ v) = true := by
  unfold containsChars
  rw [List.any_eq_true]
  exact ⟨v, (List.mem_tails v (u ++ v)).mpr (List.suffix_append u v), h⟩

theorem parseLine_render (p : String × String) (h : WellFormedPair p) :
    parseLine (renderLine p).data = some p := by
  rw [renderLine_data]
  have hcc : containsChars "=LLM("
      ('(' :: (p.1.data ++ ')' :: '=' :: 'L' :: 'L' :: 'M' :: '(' :: '"' ::
        (p.2.data ++ ['"', ')']))) = true := by
    have hre : '(' :: (p.1.data ++ ')' :: '=' :: 'L' :: 'L' :: 'M' :: '(' :: '"' ::
        (p.2.data ++ ['"', ')'])) =
        ('(' :: p.1.data ++ [')']) ++
          ('=' :: 'L' :: 'L' :: 'M' :: '(' :: '"' :: (p.2.data ++ ['"', ')'])) := by
      simp
    rw [hre]
    exact containsChars_of_suffix _ _ _ (by simp [List.isPrefixOf])
  have hidx : findIdx
      ('(' :: (p.1.data ++ ')' :: '=' :: 'L' :: 'L' :: 'M' :: '(' :: '"' ::
        (p.2.data ++ ['"', ')']))) = some p.1 := by
    have hm := matchIdxAt_render p.1.data
      ('(' :: '"' :: (p.2.data ++ ['"', ')'])) h.1 h.2.1
    exact findIdx_cons_some _ _ _ hm
  have hinstr : findInstr
      ('(' :: (p.1.data ++ ')' :: '=' :: 'L' :: 'L' :: 'M' :: '(' :: '"' ::
        (p.2.data ++ ['"', ')']))) = some p.2.data := by
    have hall : ∀ c ∈ ('(' :: p.1.data ++ [')', '=']), c ≠ 'L' := by
      intro c hc hL
      subst hL
      simp +decide [List.mem_cons, List.mem_append] at hc
      exact absurd (h.2.1 'L' hc) (by decide)
    have hre : '(' :: (p.1.data ++ ')' :: '=' :: 'L' :: 'L' :: 'M' :: '(' :: '"' ::
        (p.2.data ++ ['"', ')'])) =
        ('(' :: p.1.data ++ [')', '=']) ++
          ('L' :: 'L' :: 'M' :: '(' :: '"' :: (p.2.data ++ ['"', ')'])) := by
      simp
    rw [hre]
    rw [findInstr_skip _ _ hall (by simp)]
    exact findInstr_cons_some _ _ _
      (matchInstrAt_render p.2.data h.2.2.1 h.2.2.2.2)
  unfold parseLine
  rw [if_pos hcc, hidx, hinstr]

/-- C8: the parsing round-trip holds for scripts whose step IDs are nonempty
digit strings (as required by the digit-only ID pattern of parse_script) and
whose instructions are nonempty, newline-free and never place a quote
character directly before a closing parenthesis: parse_script recovers
exactly the rendered (id, instruction) pairs in declaration order. -/
theorem C8_parse_script_roundtrip (ps : List (String × String))
    (hwf : ∀ p ∈ ps, WellFormedPair p) :
    parse_script (renderScript ps) = ps := by
  induction ps with
  | nil => rfl
  | cons p qs ih =>
    cases qs with
    | nil =>
      show (splitOnNl (renderLine p).data).filterMap parseLine = [p]
      rw [splitOnNl_no_nl _ (renderLine_no_nl p (hwf p (List.mem_cons_self _ _)))]
      rw [List.filterMap_cons,
        parseLine_render p (hwf p (List.mem_cons_self _ _))]
      rfl
    | cons q rest =>
      have hdata : (renderScript (p :: q :: rest)).data =
          (renderLine p).data ++ '\n' :: (renderScript (q :: rest)).data := by
        show (renderLine p ++ "\n" ++ renderScript (q :: rest)).data = _
        simp
      have ih2 := ih (fun x hx => hwf x (List.mem_cons_of_mem _ hx))
      show (splitOnNl (renderScript (p :: q :: rest)).data).filterMap parseLine
        = p :: q :: rest
      rw [hdata,
        splitOnNl_append_nl _ _ (renderLine_no_nl p (hwf p (List.mem_cons_self _ _)))]
      rw [List.filterMap_cons,
        parseLine_render p (hwf p (List.mem_cons_self _ _))]
      exact congrArg (List.cons p) ih2

/-- Witness for C8: a concrete two-step script with numeric IDs round-trips. -/
theorem C8_parse_script_roundtrip_witness :
    (∀ p ∈ [(("1" : String), ("Summarize the items" : String)),
            ("2", "Rank the items")], WellFormedPair p) ∧
    parse_script (renderScript
      [("1", "Summarize the items"), ("2", "Rank the items")]) =
      [("1", "Summarize the items"), ("2", "Rank the items")] := by
  refine ⟨?_, ?_⟩
  · intro p hp
    rcases List.mem_cons.mp hp with rfl | hp2
    · exact ⟨by decide, by decide, by decide, by decide, by decide⟩
    rcases List.mem_cons.mp hp2 with rfl | hp3
    · exact ⟨by decide, by decide, by decide, by decide, by decide⟩
    · cases hp3
  · exact C8_parse_script_roundtrip _ (by
      intro p hp
      rcases List.mem_cons.mp hp with rfl | hp2
      · exact ⟨by decide, by decide, by decide, by decide, by decide⟩
      rcases List.mem_cons.mp hp2 with rfl | hp3
      · exact ⟨by decide, by decide, by decide, by decide, by decide⟩
      · cases hp3)

/-- Counterexample to C8 as stated: a well-formed line whose hierarchical
dotted ID a.b fits the claimed alphanumeric-underscore-dot ID alphabet is
dropped entirely by parse_script, because its ID pattern accepts digits
only. -/
theorem C8_counterexample :
    parse_script (renderScript [(("a.b" : String), ("x" : String))]) = [] ∧
    parse_script (renderScript [(("a.b" : String), ("x" : String))]) ≠
      [(("a.b" : String), ("x" : String))] := by
  refine ⟨rfl, ?_⟩
  intro hcontra
  have : ([] : List (String × String)) = [("a.b", "x")] := by
    rw [← hcontra]; rfl
  cases this
